import Mathlib

/-!
Verification development for the sinkhole risk / escape-route planner.

The definitions below are a shallow embedding of the planner's core
(`src/App.tsx`): the SRI risk model, the band classification, the adaptive
edge-weight function, the Dijkstra-based escape planner, and the alert /
navigation state machine.  JavaScript numbers are modelled by `ℚ`, the
`Infinity` sentinel in the tentative-distance table by `Option ℚ`, and the
unbounded `while` loop of the shortest-path search by structural fuel equal
to the number of sites (each iteration visits a fresh site, so the fuel is
never the binding constraint).
-/

namespace Sinkhole

/-- The four monitored sites (type `NodeId` in the source). -/
inductive NodeId
  | P1
  | P2
  | P3
  | P4
deriving DecidableEq, Repr, Fintype

open NodeId

/-- One site's observation bundle (`PointData`). -/
structure PointData where
  rainfall : ℚ
  soil : ℚ
  sand : ℚ
  hoseLeak : Fin 4
  excavation : Bool
  trafficLoad : Fin 3
deriving DecidableEq

/-- Discrete risk band (`SriBand`). -/
inductive SriBand
  | low
  | mid
  | high
deriving DecidableEq, Repr

/-- The intermediate values and final score of the risk model (`SriMetrics`). -/
structure SriMetrics where
  R : ℚ
  f : ℚ
  T : ℚ
  L : ℚ
  E : ℚ
  D : ℚ
  raw : ℚ
  SRI : ℚ
deriving DecidableEq

/-- An undirected connection with its static base cost (`Edge`). -/
structure Edge where
  a : NodeId
  b : NodeId
  distance : ℚ
deriving DecidableEq

/-- The high-band threshold (`LIMIT_SRI`). -/
def LIMIT_SRI : ℚ := 7

/-- Leak-level lookup (`L_MAP`). -/
def L_MAP : Fin 4 → ℚ
  | 0 => 0
  | 1 => 0.3
  | 2 => 0.6
  | 3 => 1

/-- Traffic-load lookup (`D_MAP`). -/
def D_MAP : Fin 3 → ℚ
  | 0 => 0
  | 1 => 0.5
  | 2 => 1

/-- The fixed five-connection topology (`EDGES_DEFAULT`). -/
def EDGES_DEFAULT : List Edge :=
  [⟨P1, P2, 6⟩, ⟨P2, P3, 5⟩, ⟨P3, P4, 7⟩, ⟨P1, P3, 9⟩, ⟨P2, P4, 8⟩]

/-- `clamp(v, min, max) = Math.max(min, Math.min(max, v))`. -/
def clamp (v lo hi : ℚ) : ℚ := max lo (min hi v)

/-- `clip01` clamps into `[0, 1]`. -/
def clip01 (v : ℚ) : ℚ := clamp v 0 1

/-- Band classification of a score (`sriBand`). -/
def sriBand (sri : ℚ) : SriBand :=
  if sri ≤ 3 then .low else if sri < 7 then .mid else .high

/-- The zero observation bundle given to every site initially
(`makeInitialPoints`, modelled as a function from site ids). -/
def makeInitialPoints : NodeId → PointData := fun _ =>
  { rainfall := 0, soil := 0, sand := 0, hoseLeak := 0, excavation := false, trafficLoad := 0 }

/-- The SRI computation (`computeSRI`). -/
def computeSRI (p : PointData) : SriMetrics :=
  let R := min (p.rainfall / 1000) 1
  let denom := p.soil + p.sand
  let f := if 0 < denom then p.soil / denom else 0
  let T := clip01 ((f - 0.25) / 0.5)
  let L := L_MAP p.hoseLeak
  let E : ℚ := if p.excavation then 1 else 0
  let D := D_MAP p.trafficLoad
  let raw := 3 * R + 3 * T + 2 * L + 1 * E + 1 * D
  let SRI := min 10 raw
  ⟨R, f, T, L, E, D, raw, SRI⟩

/-- The per-site weight factor (`nodeFactorBySri`). -/
def nodeFactorBySri (sri : ℚ) : ℚ :=
  let margin := LIMIT_SRI - sri
  if margin ≤ 0 then 5
  else 1 - 0.6 * clip01 (margin / LIMIT_SRI)

/-- `(defaultWeight, realWeight)` of a connection (`edgeRealWeight`). -/
def edgeRealWeight (edge : Edge) (sriMap : NodeId → ℚ) : ℚ × ℚ :=
  let dw := edge.distance
  let fa := nodeFactorBySri (sriMap edge.a)
  let fb := nodeFactorBySri (sriMap edge.b)
  (dw, dw * ((fa + fb) / 2))

/-- Adjacency structures: each site maps to its list of `(neighbour, edge)`
records (`buildAdjacency`'s result type). -/
abbrev Adj := NodeId → List (NodeId × Edge)

/-- `buildAdjacency` pushes both directions of every edge, in edge order. -/
def buildAdjacency (edges : List Edge) : Adj := fun n =>
  edges.foldl (fun acc e =>
    acc ++ (if n = e.a then [(e.b, e)] else []) ++ (if n = e.b then [(e.a, e)] else [])) []

/-- The fixed enumeration order of the sites (the `nodes` array). -/
def nodesList : List NodeId := [P1, P2, P3, P4]

/-- A returned path with its cost (`PathResult`, minus the `null` case). -/
structure PathResult where
  path : List NodeId
  cost : ℚ
deriving DecidableEq

/-- One step of the linear minimum scan (the body of the
`for (const n of nodes)` selection loop in `dijkstra`): skip visited nodes,
otherwise take a strictly smaller finite tentative distance. -/
def selStep (dist : NodeId → Option ℚ) (visited : List NodeId)
    (acc : Option (NodeId × ℚ)) (n : NodeId) : Option (NodeId × ℚ) :=
  if n ∈ visited then acc
  else
    match dist n, acc with
    | some d, none => some (n, d)
    | some d, some (u, best) => if d < best then some (n, d) else some (u, best)
    | none, a => a

/-- The linear scan selecting the unvisited node of smallest finite tentative
distance, ties broken by enumeration order; `none` plays the role of
`u === null`. -/
def selectMin (dist : NodeId → Option ℚ) (visited : List NodeId) : Option (NodeId × ℚ) :=
  nodesList.foldl (selStep dist visited) none

/-- Path reconstruction by following `prev` links and reversing (the
`while (cur) { path.push(cur); cur = prev[cur] }` loop).  The source loop is
unbounded; here it carries fuel, which the loop invariants show is never
exhausted because `prev` chains strictly descend the visiting order. -/
def reconstructPath (prev : NodeId → Option NodeId) : ℕ → NodeId → List NodeId
  | 0, u => [u]
  | fuel + 1, u =>
    match prev u with
    | none => [u]
    | some p => reconstructPath prev fuel p ++ [u]

/-- One relaxation of a single adjacency record (the body of the
`for (const { to, edge } of adj[u])` loop). -/
def relaxEntry (w : Edge → ℚ) (u : NodeId) (du : ℚ) (visited : List NodeId)
    (dp : (NodeId → Option ℚ) × (NodeId → Option NodeId)) (q : NodeId × Edge) :
    (NodeId → Option ℚ) × (NodeId → Option NodeId) :=
  if q.1 ∈ visited then dp
  else
    match dp.1 q.1 with
    | none =>
      (fun y => if y = q.1 then some (du + w q.2) else dp.1 y,
       fun y => if y = q.1 then some u else dp.2 y)
    | some dto =>
      if du + w q.2 < dto then
        (fun y => if y = q.1 then some (du + w q.2) else dp.1 y,
         fun y => if y = q.1 then some u else dp.2 y)
      else dp

/-- Relaxing every outgoing record of the freshly visited node `u`. -/
def relaxAll (adj : Adj) (w : Edge → ℚ) (u : NodeId) (du : ℚ) (visited : List NodeId)
    (dist : NodeId → Option ℚ) (prev : NodeId → Option NodeId) :
    (NodeId → Option ℚ) × (NodeId → Option NodeId) :=
  (adj u).foldl (relaxEntry w u du visited) (dist, prev)

/-- The main `while (visited.size < nodes.length)` loop of `dijkstra`.  The
fuel equals `nodes.length - visited.size`; each iteration visits one more
node, so running out of fuel coincides with the source's loop condition
turning false. -/
def dijkstraLoop (adj : Adj) (w : Edge → ℚ) (targets : List NodeId) :
    ℕ → (NodeId → Option ℚ) → (NodeId → Option NodeId) → List NodeId → Option PathResult
  | 0, _, _, _ => none
  | fuel + 1, dist, prev, visited =>
    match selectMin dist visited with
    | none => none
    | some (u, du) =>
      if u ∈ targets then some ⟨reconstructPath prev nodesList.length u, du⟩
      else
        let dp := relaxAll adj w u du (u :: visited) dist prev
        dijkstraLoop adj w targets fuel dp.1 dp.2 (u :: visited)

/-- Single-source multi-target shortest path (`dijkstra`). -/
def dijkstra (start : NodeId) (targets : List NodeId) (adj : Adj) (w : Edge → ℚ) :
    Option PathResult :=
  dijkstraLoop adj w targets nodesList.length
    (fun n => if n = start then some 0 else none) (fun _ => none) []

/-- An escape plan: path, total real cost, and the destination read off the
path's last element (`computeEscapePlan`'s result; the destination is
`Option`-valued because indexing an empty path would be `undefined`). -/
structure EscapePlan where
  path : List NodeId
  cost : ℚ
  destination : Option NodeId
deriving DecidableEq

/-- Target-set selection of `computeEscapePlan`: the other sites with score
strictly below the limit, or every other site when that set is empty. -/
def escapeTargets (start : NodeId) (sriMap : NodeId → ℚ) : List NodeId :=
  let safeCandidates := nodesList.filter fun n => decide (n ≠ start ∧ sriMap n < LIMIT_SRI)
  if 0 < safeCandidates.length then safeCandidates
  else nodesList.filter fun n => decide (n ≠ start)

/-- `computeEscapePlan`: run `dijkstra` from the trigger site towards the
selected targets under the real (risk-adjusted) weights. -/
def computeEscapePlan (start : NodeId) (sriMap : NodeId → ℚ) (adj : Adj) :
    Option EscapePlan :=
  match dijkstra start (escapeTargets start sriMap) adj
      (fun e => (edgeRealWeight e sriMap).2) with
  | none => none
  | some best => some ⟨best.path, best.cost, best.path.getLast?⟩

/-- The mutable state of the component `EscapeSRIPlanner`: the observation
bundles, the traveler's position, the alert flags, the active plan, and the
previous-band snapshot held in `prevBandRef`. -/
structure AppState where
  points : NodeId → PointData
  currentNode : NodeId
  alertOpen : Bool
  alertFrom : Option NodeId
  escapePath : List NodeId
  escapeDest : Option NodeId
  prevBand : NodeId → SriBand

/-- The adjacency structure the component builds once (`useMemo`). -/
def adjDefault : Adj := buildAdjacency EDGES_DEFAULT

/-- The derived score map (`sriMap`). -/
def sriMapOf (points : NodeId → PointData) : NodeId → ℚ :=
  fun n => (computeSRI (points n)).SRI

/-- The freshly recomputed band of every site (`nowBand`). -/
def nowBandOf (s : AppState) : NodeId → SriBand :=
  fun n => sriBand (sriMapOf s.points n)

/-- The first site, in enumeration order, whose band just entered `high`
(`enteredHigh` in the alert effect). -/
def enteredHighOf (s : AppState) : Option NodeId :=
  nodesList.find? fun n =>
    decide (s.prevBand n ≠ SriBand.high ∧ nowBandOf s n = SriBand.high)

/-- One run of the alert-state-machine effect: store the new band snapshot,
and when some site just entered `high`, open the alert and install the plan
computed from the current score map (or the degenerate single-node plan when
planning fails). -/
def updateCycle (s : AppState) : AppState :=
  let nowBand := nowBandOf s
  match enteredHighOf s with
  | none => { s with prevBand := nowBand }
  | some n =>
    match computeEscapePlan n (sriMapOf s.points) adjDefault with
    | some plan =>
      { s with prevBand := nowBand, alertOpen := true, alertFrom := some n,
               escapePath := plan.path, escapeDest := plan.destination }
    | none =>
      { s with prevBand := nowBand, alertOpen := true, alertFrom := some n,
               escapePath := [n], escapeDest := none }

/-- The reset button: `setPoints(makeInitialPoints())`, after which the
alert effect runs one cycle on the fresh score map. -/
def resetPoints (s : AppState) : AppState :=
  updateCycle { s with points := makeInitialPoints }

/-- The derived next hop along the active path (`nextHop`): the element after
the current position's first occurrence when that occurrence is not last,
otherwise the path's second element; `none` for paths shorter than two. -/
def nextHop (escapePath : List NodeId) (currentNode : NodeId) : Option NodeId :=
  if escapePath.length < 2 then none
  else
    let idx := escapePath.indexOf currentNode
    if idx < escapePath.length - 1 then escapePath.get? (idx + 1)
    else escapePath.get? 1

/-- The confirm-hop button: move to the next hop, and close the alert when
the new position is the plan's destination. -/
def confirmHop (s : AppState) : AppState :=
  match nextHop s.escapePath s.currentNode with
  | none => s
  | some h =>
    { s with currentNode := h,
             alertOpen := if some h = s.escapeDest then false else s.alertOpen }

/-- Specification-side notion of a walk between two sites through the
adjacency structure, carrying its total weight. -/
inductive Walks (adj : Adj) (w : Edge → ℚ) : NodeId → NodeId → ℚ → Prop
  | refl (u : NodeId) : Walks adj w u u 0
  | cons {u v z : NodeId} {c : ℚ} (e : Edge) :
      (v, e) ∈ adj u → Walks adj w v z c → Walks adj w u z (w e + c)

/-- Specification-side: the node list `p` is a path through `adj` of total
weight `c` (each consecutive pair realized by some adjacency record). -/
inductive PathCost (adj : Adj) (w : Edge → ℚ) : List NodeId → ℚ → Prop
  | single (u : NodeId) : PathCost adj w [u] 0
  | cons {u v : NodeId} {rest : List NodeId} {c : ℚ} (e : Edge) :
      (v, e) ∈ adj u → PathCost adj w (v :: rest) c →
      PathCost adj w (u :: v :: rest) (w e + c)

/-- Rank of a node relative to the visited list (most recently visited
first): visited nodes rank by seniority, unvisited nodes above all of them.
`prev` links strictly descend this rank, bounding reconstruction depth. -/
def rankOf (visited : List NodeId) (v : NodeId) : ℕ :=
  if v ∈ visited then visited.length - visited.indexOf v else visited.length + 1

/-- The loop invariant of the shortest-path search. -/
structure DInv (adj : Adj) (w : Edge → ℚ) (start : NodeId) (targets : List NodeId)
    (dist : NodeId → Option ℚ) (prev : NodeId → Option NodeId)
    (visited : List NodeId) : Prop where
  nodup : visited.Nodup
  start_dist : dist start = some 0
  nonneg : ∀ v d, dist v = some d → 0 ≤ d
  realized : ∀ v d, dist v = some d → Walks adj w start v d
  settled_some : ∀ v ∈ visited, ∃ d, dist v = some d
  settled_min : ∀ v ∈ visited, ∀ d, dist v = some d → ∀ c, Walks adj w start v c → d ≤ c
  frontier : ∀ v ∈ visited, ∀ q ∈ adj v, q.1 ∉ visited → ∀ dv, dist v = some dv →
    ∃ d', dist q.1 = some d' ∧ d' ≤ dv + w q.2
  no_target : ∀ v ∈ visited, v ∉ targets
  prev_none : ∀ v d, dist v = some d → prev v = none → v = start
  prev_some : ∀ v d, dist v = some d → ∀ p, prev v = some p →
    p ∈ visited ∧ ∃ dp e, dist p = some dp ∧ (v, e) ∈ adj p ∧ d = dp + w e
  prev_dist : ∀ v p, prev v = some p → ∃ d, dist v = some d
  chain : ∀ i (h : i < visited.length), ∀ p, prev (visited.get ⟨i, h⟩) = some p →
    p ∈ visited.drop (i + 1)

/-- The score map of the spec's worked example: `P1` at score 8, every other
site at score 0. -/
def demoSriMap : NodeId → ℚ := fun n => if n = P1 then 8 else 0

/-- A concrete state with an active alert and a traveler away from home,
used to exercise the reset operation. -/
def resetDemoState : AppState :=
  { points := makeInitialPoints, currentNode := P2, alertOpen := true,
    alertFrom := some P1, escapePath := [P1, P2], escapeDest := some P2,
    prevBand := fun _ => SriBand.high }

/-!  ## Theorems  -/

theorem mem_nodesList (n : NodeId) : n ∈ nodesList := by
  cases n <;> simp [nodesList]

theorem walks_nonneg {adj : Adj} {w : Edge → ℚ} (hw : ∀ x, ∀ q ∈ adj x, 0 < w q.2)
    {x z : NodeId} {c : ℚ} (hwalk : Walks adj w x z c) : 0 ≤ c := by
  induction hwalk with
  | refl u => exact le_refl 0
  | @cons u v z' c' e hmem hrest ih =>
    have := hw u (v, e) hmem
    dsimp only at this
    linarith

theorem walks_snoc {adj : Adj} {w : Edge → ℚ} {x v : NodeId} {c : ℚ}
    (hwalk : Walks adj w x v c) : ∀ {z : NodeId} (e : Edge), (z, e) ∈ adj v →
    Walks adj w x z (c + w e) := by
  induction hwalk with
  | refl u =>
    intro z e hmem
    rw [zero_add]
    have h : Walks adj w u z (w e + 0) := Walks.cons e hmem (Walks.refl z)
    rwa [add_zero] at h
  | @cons u v' z' c' e' hmem' hrest ih =>
    intro z e hmem
    rw [add_assoc]
    exact Walks.cons e' hmem' (ih e hmem)

theorem pathCost_cast {adj : Adj} {w : Edge → ℚ} {p : List NodeId} {c c' : ℚ}
    (h : c = c') (hp : PathCost adj w p c) : PathCost adj w p c' := h ▸ hp

theorem walks_of_pathCost {adj : Adj} {w : Edge → ℚ} {p : List NodeId} {c : ℚ}
    (hpc : PathCost adj w p c) : ∀ {x z : NodeId}, p.head? = some x →
    p.getLast? = some z → Walks adj w x z c := by
  induction hpc with
  | single u =>
    intro x z hx hz
    have hxu : u = x := by simpa using hx
    have hzu : u = z := by simpa using hz
    subst hxu
    subst hzu
    exact Walks.refl _
  | @cons u v rest c' e hmem hrest ih =>
    intro x z hx hz
    have hxu : u = x := by simpa using hx
    subst hxu
    rw [List.getLast?_cons_cons] at hz
    exact Walks.cons e hmem (ih rfl hz)

theorem pathCost_of_walks {adj : Adj} {w : Edge → ℚ} {x z : NodeId} {c : ℚ}
    (hwalk : Walks adj w x z c) :
    ∃ p, PathCost adj w p c ∧ p.head? = some x ∧ p.getLast? = some z := by
  induction hwalk with
  | refl u => exact ⟨[u], PathCost.single u, rfl, rfl⟩
  | @cons u v z' c' e hmem hrest ih =>
    obtain ⟨p, hpc, hhead, hlast⟩ := ih
    cases p with
    | nil => simp at hhead
    | cons v' t =>
      have hv : v' = v := by simpa using hhead
      subst hv
      exact ⟨u :: v' :: t, PathCost.cons e hmem hpc,
        rfl, by rw [List.getLast?_cons_cons]; exact hlast⟩

theorem pathCost_snoc {adj : Adj} {w : Edge → ℚ} {p : List NodeId} {c : ℚ}
    (hpc : PathCost adj w p c) : ∀ {v z : NodeId} (e : Edge), p.getLast? = some v →
    (z, e) ∈ adj v → PathCost adj w (p ++ [z]) (c + w e) := by
  induction hpc with
  | single u =>
    intro v z e hlast hmem
    have huv : u = v := by simpa using hlast
    subst huv
    exact pathCost_cast (by ring) (PathCost.cons e hmem (PathCost.single z))
  | @cons u v' rest c' e' hmem' hrest ih =>
    intro v z e hlast hmem
    rw [List.getLast?_cons_cons] at hlast
    exact pathCost_cast (by ring) (PathCost.cons e' hmem' (ih e hlast hmem))

theorem selStep_mem {dist : NodeId → Option ℚ} {visited : List NodeId}
    {acc : Option (NodeId × ℚ)} {n : NodeId} (h : n ∈ visited) :
    selStep dist visited acc n = acc := by
  unfold selStep
  rw [if_pos h]

theorem selStep_no_dist {dist : NodeId → Option ℚ} {visited : List NodeId}
    {acc : Option (NodeId × ℚ)} {n : NodeId} (h : n ∉ visited) (hd : dist n = none) :
    selStep dist visited acc n = acc := by
  unfold selStep
  rw [if_neg h, hd]

theorem selStep_first {dist : NodeId → Option ℚ} {visited : List NodeId}
    {n : NodeId} {d : ℚ} (h : n ∉ visited) (hd : dist n = some d) :
    selStep dist visited none n = some (n, d) := by
  unfold selStep
  rw [if_neg h, hd]

theorem selStep_lt {dist : NodeId → Option ℚ} {visited : List NodeId}
    {n x : NodeId} {d bx : ℚ} (h : n ∉ visited) (hd : dist n = some d) (hlt : d < bx) :
    selStep dist visited (some (x, bx)) n = some (n, d) := by
  unfold selStep
  rw [if_neg h, hd]
  exact if_pos hlt

theorem selStep_ge {dist : NodeId → Option ℚ} {visited : List NodeId}
    {n x : NodeId} {d bx : ℚ} (h : n ∉ visited) (hd : dist n = some d) (hge : ¬ d < bx) :
    selStep dist visited (some (x, bx)) n = some (x, bx) := by
  unfold selStep
  rw [if_neg h, hd]
  exact if_neg hge

theorem selFold_eq_none {dist : NodeId → Option ℚ} {visited : List NodeId} :
    ∀ (l : List NodeId) (acc : Option (NodeId × ℚ)),
    l.foldl (selStep dist visited) acc = none →
    acc = none ∧ ∀ n ∈ l, n ∉ visited → dist n = none := by
  intro l
  induction l with
  | nil =>
    intro acc h
    exact ⟨h, by simp⟩
  | cons n l ih =>
    intro acc h
    rw [List.foldl_cons] at h
    obtain ⟨hstep, hrest⟩ := ih _ h
    constructor
    · by_cases hn : n ∈ visited
      · rwa [selStep_mem hn] at hstep
      · cases hd : dist n with
        | none => rwa [selStep_no_dist hn hd] at hstep
        | some d =>
          cases acc with
          | none => rfl
          | some ub =>
            obtain ⟨x, bx⟩ := ub
            by_cases hlt : d < bx
            · rw [selStep_lt hn hd hlt] at hstep
              exact absurd hstep (by simp)
            · rw [selStep_ge hn hd hlt] at hstep
              exact absurd hstep (by simp)
    · intro m hm hmv
      rcases List.mem_cons.mp hm with rfl | hml
      · by_contra hd
        obtain ⟨d, hd⟩ := Option.ne_none_iff_exists'.mp hd
        cases acc with
        | none =>
          rw [selStep_first hmv hd] at hstep
          exact absurd hstep (by simp)
        | some ub =>
          obtain ⟨x, bx⟩ := ub
          by_cases hlt : d < bx
          · rw [selStep_lt hmv hd hlt] at hstep
            exact absurd hstep (by simp)
          · rw [selStep_ge hmv hd hlt] at hstep
            exact absurd hstep (by simp)
      · exact hrest m hml hmv

theorem selFold_some {dist : NodeId → Option ℚ} {visited : List NodeId} :
    ∀ (l : List NodeId) (acc : Option (NodeId × ℚ)) (u : NodeId) (du : ℚ),
    l.foldl (selStep dist visited) acc = some (u, du) →
    acc = some (u, du) ∨ (u ∉ visited ∧ dist u = some du) := by
  intro l
  induction l with
  | nil =>
    intro acc u du h
    exact .inl h
  | cons n l ih =>
    intro acc u du h
    rw [List.foldl_cons] at h
    rcases ih _ _ _ h with hstep | hres
    · by_cases hn : n ∈ visited
      · rw [selStep_mem hn] at hstep
        exact .inl hstep
      · cases hd : dist n with
        | none =>
          rw [selStep_no_dist hn hd] at hstep
          exact .inl hstep
        | some d =>
          cases acc with
          | none =>
            rw [selStep_first hn hd, Option.some.injEq, Prod.mk.injEq] at hstep
            obtain ⟨rfl, rfl⟩ := hstep
            exact .inr ⟨hn, hd⟩
          | some ub =>
            obtain ⟨x, bx⟩ := ub
            by_cases hlt : d < bx
            · rw [selStep_lt hn hd hlt, Option.some.injEq, Prod.mk.injEq] at hstep
              obtain ⟨rfl, rfl⟩ := hstep
              exact .inr ⟨hn, hd⟩
            · rw [selStep_ge hn hd hlt] at hstep
              exact .inl hstep
    · exact .inr hres

theorem selFold_min {dist : NodeId → Option ℚ} {visited : List NodeId} :
    ∀ (l : List NodeId) (acc : Option (NodeId × ℚ)) (u : NodeId) (du : ℚ),
    l.foldl (selStep dist visited) acc = some (u, du) →
    (∀ x bx, acc = some (x, bx) → du ≤ bx) ∧
    (∀ n ∈ l, n ∉ visited → ∀ d, dist n = some d → du ≤ d) := by
  intro l
  induction l with
  | nil =>
    intro acc u du h
    simp only [List.foldl_nil] at h
    refine ⟨?_, by simp⟩
    intro x bx hacc
    rw [h, Option.some.injEq, Prod.mk.injEq] at hacc
    exact le_of_eq hacc.2
  | cons n l ih =>
    intro acc u du h
    rw [List.foldl_cons] at h
    obtain ⟨ihacc, ihmem⟩ := ih _ _ _ h
    constructor
    · intro x bx hacc
      subst hacc
      by_cases hn : n ∈ visited
      · exact ihacc x bx (selStep_mem hn)
      · cases hd : dist n with
        | none => exact ihacc x bx (selStep_no_dist hn hd)
        | some d =>
          by_cases hlt : d < bx
          · have := ihacc n d (selStep_lt hn hd hlt)
            linarith
          · exact ihacc x bx (selStep_ge hn hd hlt)
    · intro m hm hmv d hd
      rcases List.mem_cons.mp hm with rfl | hml
      · cases acc with
        | none => exact ihacc m d (selStep_first hmv hd)
        | some ub =>
          obtain ⟨x, bx⟩ := ub
          by_cases hlt : d < bx
          · exact ihacc m d (selStep_lt hmv hd hlt)
          · have := ihacc x bx (selStep_ge hmv hd hlt)
            linarith
      · exact ihmem m hml hmv d hd

theorem relaxEntry_mem {w : Edge → ℚ} {u : NodeId} {du : ℚ} {visited : List NodeId}
    {dp : (NodeId → Option ℚ) × (NodeId → Option NodeId)} {q : NodeId × Edge}
    (h : q.1 ∈ visited) : relaxEntry w u du visited dp q = dp := by
  unfold relaxEntry
  rw [if_pos h]

theorem relaxEntry_new {w : Edge → ℚ} {u : NodeId} {du : ℚ} {visited : List NodeId}
    {dp : (NodeId → Option ℚ) × (NodeId → Option NodeId)} {q : NodeId × Edge}
    (h : q.1 ∉ visited) (hd : dp.1 q.1 = none) :
    relaxEntry w u du visited dp q =
      (fun y => if y = q.1 then some (du + w q.2) else dp.1 y,
       fun y => if y = q.1 then some u else dp.2 y) := by
  unfold relaxEntry
  rw [if_neg h, hd]

theorem relaxEntry_lt {w : Edge → ℚ} {u : NodeId} {du : ℚ} {visited : List NodeId}
    {dp : (NodeId → Option ℚ) × (NodeId → Option NodeId)} {q : NodeId × Edge} {dto : ℚ}
    (h : q.1 ∉ visited) (hd : dp.1 q.1 = some dto) (hlt : du + w q.2 < dto) :
    relaxEntry w u du visited dp q =
      (fun y => if y = q.1 then some (du + w q.2) else dp.1 y,
       fun y => if y = q.1 then some u else dp.2 y) := by
  unfold relaxEntry
  rw [if_neg h, hd]
  exact if_pos hlt

theorem relaxEntry_ge {w : Edge → ℚ} {u : NodeId} {du : ℚ} {visited : List NodeId}
    {dp : (NodeId → Option ℚ) × (NodeId → Option NodeId)} {q : NodeId × Edge} {dto : ℚ}
    (h : q.1 ∉ visited) (hd : dp.1 q.1 = some dto) (hge : ¬ du + w q.2 < dto) :
    relaxEntry w u du visited dp q = dp := by
  unfold relaxEntry
  rw [if_neg h, hd]
  exact if_neg hge

theorem relaxFold_visited (w : Edge → ℚ) (u : NodeId) (du : ℚ) (visited : List NodeId) :
    ∀ (l : List (NodeId × Edge)) (dp : (NodeId → Option ℚ) × (NodeId → Option NodeId)),
    ∀ v ∈ visited,
      (l.foldl (relaxEntry w u du visited) dp).1 v = dp.1 v ∧
      (l.foldl (relaxEntry w u du visited) dp).2 v = dp.2 v := by
  intro l
  induction l with
  | nil =>
    intro dp v hv
    exact ⟨rfl, rfl⟩
  | cons q l ih =>
    intro dp v hv
    rw [List.foldl_cons]
    obtain ⟨h1, h2⟩ := ih (relaxEntry w u du visited dp q) v hv
    rw [h1, h2]
    by_cases hq : q.1 ∈ visited
    · rw [relaxEntry_mem hq]
      exact ⟨rfl, rfl⟩
    · have hvq : v ≠ q.1 := fun h => hq (h ▸ hv)
      cases hd : dp.1 q.1 with
      | none =>
        rw [relaxEntry_new hq hd]
        exact ⟨if_neg hvq, if_neg hvq⟩
      | some dto =>
        by_cases hlt : du + w q.2 < dto
        · rw [relaxEntry_lt hq hd hlt]
          exact ⟨if_neg hvq, if_neg hvq⟩
        · rw [relaxEntry_ge hq hd hlt]
          exact ⟨rfl, rfl⟩

theorem relaxEntry_eval (w : Edge → ℚ) (u : NodeId) (du : ℚ) (visited : List NodeId)
    (dp : (NodeId → Option ℚ) × (NodeId → Option NodeId)) (q : NodeId × Edge)
    (v : NodeId) :
    ((relaxEntry w u du visited dp q).1 v = dp.1 v ∧
     (relaxEntry w u du visited dp q).2 v = dp.2 v) ∨
    (v = q.1 ∧ q.1 ∉ visited ∧
     (relaxEntry w u du visited dp q).1 v = some (du + w q.2) ∧
     (relaxEntry w u du visited dp q).2 v = some u) := by
  by_cases hq : q.1 ∈ visited
  · rw [relaxEntry_mem hq]
    exact .inl ⟨rfl, rfl⟩
  · by_cases hvq : v = q.1
    · cases hd : dp.1 q.1 with
      | none =>
        rw [relaxEntry_new hq hd]
        exact .inr ⟨hvq, hq, if_pos hvq, if_pos hvq⟩
      | some dto =>
        by_cases hlt : du + w q.2 < dto
        · rw [relaxEntry_lt hq hd hlt]
          exact .inr ⟨hvq, hq, if_pos hvq, if_pos hvq⟩
        · rw [relaxEntry_ge hq hd hlt]
          exact .inl ⟨rfl, rfl⟩
    · left
      cases hd : dp.1 q.1 with
      | none =>
        rw [relaxEntry_new hq hd]
        exact ⟨if_neg hvq, if_neg hvq⟩
      | some dto =>
        by_cases hlt : du + w q.2 < dto
        · rw [relaxEntry_lt hq hd hlt]
          exact ⟨if_neg hvq, if_neg hvq⟩
        · rw [relaxEntry_ge hq hd hlt]
          exact ⟨rfl, rfl⟩

theorem relaxFold_cases (w : Edge → ℚ) (u : NodeId) (du : ℚ) (visited : List NodeId) :
    ∀ (l : List (NodeId × Edge)) (dp : (NodeId → Option ℚ) × (NodeId → Option NodeId))
      (v : NodeId),
    ((l.foldl (relaxEntry w u du visited) dp).1 v = dp.1 v ∧
     (l.foldl (relaxEntry w u du visited) dp).2 v = dp.2 v) ∨
    (v ∉ visited ∧ ∃ e, (v, e) ∈ l ∧
     (l.foldl (relaxEntry w u du visited) dp).1 v = some (du + w e) ∧
     (l.foldl (relaxEntry w u du visited) dp).2 v = some u) := by
  intro l
  induction l with
  | nil =>
    intro dp v
    exact .inl ⟨rfl, rfl⟩
  | cons q l ih =>
    intro dp v
    rw [List.foldl_cons]
    rcases ih (relaxEntry w u du visited dp q) v with ⟨h1, h2⟩ | ⟨hnv, e, hel, h1, h2⟩
    · rcases relaxEntry_eval w u du visited dp q v with ⟨e1, e2⟩ | ⟨hvq, hq, e1, e2⟩
      · exact .inl ⟨h1.trans e1, h2.trans e2⟩
      · refine .inr ⟨hvq ▸ hq, q.2, ?_, h1.trans e1, h2.trans e2⟩
        rw [hvq]
        exact List.mem_cons_self _ _
    · exact .inr ⟨hnv, e, List.mem_cons_of_mem q hel, h1, h2⟩

theorem relaxFold_mono (w : Edge → ℚ) (u : NodeId) (du : ℚ) (visited : List NodeId) :
    ∀ (l : List (NodeId × Edge)) (dp : (NodeId → Option ℚ) × (NodeId → Option NodeId))
      (v : NodeId) (d : ℚ), dp.1 v = some d →
    ∃ d', (l.foldl (relaxEntry w u du visited) dp).1 v = some d' ∧ d' ≤ d := by
  intro l
  induction l with
  | nil =>
    intro dp v d hd
    exact ⟨d, hd, le_rfl⟩
  | cons q l ih =>
    intro dp v d hd
    rw [List.foldl_cons]
    by_cases hq : q.1 ∈ visited
    · rw [relaxEntry_mem hq]
      exact ih dp v d hd
    · cases hdq : dp.1 q.1 with
      | none =>
        by_cases hvq : v = q.1
        · rw [hvq, hdq] at hd
          exact absurd hd (by simp)
        · refine ih _ v d ?_
          rw [relaxEntry_new hq hdq]
          show (if v = q.1 then some (du + w q.2) else dp.1 v) = some d
          rw [if_neg hvq]
          exact hd
      | some dto =>
        by_cases hlt : du + w q.2 < dto
        · by_cases hvq : v = q.1
          · have hddto : d = dto := by
              rw [hvq, hdq] at hd
              exact (Option.some.inj hd).symm
            obtain ⟨d', hres, hle⟩ := ih (relaxEntry w u du visited dp q) v (du + w q.2) (by
              rw [relaxEntry_lt hq hdq hlt]
              show (if v = q.1 then some (du + w q.2) else dp.1 v) = some (du + w q.2)
              exact if_pos hvq)
            refine ⟨d', hres, ?_⟩
            rw [hddto]
            linarith
          · refine ih _ v d ?_
            rw [relaxEntry_lt hq hdq hlt]
            show (if v = q.1 then some (du + w q.2) else dp.1 v) = some d
            rw [if_neg hvq]
            exact hd
        · rw [relaxEntry_ge hq hdq hlt]
          exact ih dp v d hd

theorem relaxFold_ub (w : Edge → ℚ) (u : NodeId) (du : ℚ) (visited : List NodeId) :
    ∀ (l : List (NodeId × Edge)) (dp : (NodeId → Option ℚ) × (NodeId → Option NodeId)),
    ∀ q ∈ l, q.1 ∉ visited →
    ∃ d', (l.foldl (relaxEntry w u du visited) dp).1 q.1 = some d' ∧ d' ≤ du + w q.2 := by
  intro l
  induction l with
  | nil =>
    intro dp q hq
    simp at hq
  | cons q0 l ih =>
    intro dp q hq hqv
    rw [List.foldl_cons]
    rcases List.mem_cons.mp hq with rfl | hql
    · have hstep : ∃ d0, (relaxEntry w u du visited dp q).1 q.1 = some d0 ∧
          d0 ≤ du + w q.2 := by
        cases hd : dp.1 q.1 with
        | none =>
          rw [relaxEntry_new hqv hd]
          refine ⟨du + w q.2, ?_, le_rfl⟩
          show (if q.1 = q.1 then some (du + w q.2) else dp.1 q.1) = some (du + w q.2)
          exact if_pos rfl
        | some dto =>
          by_cases hlt : du + w q.2 < dto
          · rw [relaxEntry_lt hqv hd hlt]
            refine ⟨du + w q.2, ?_, le_rfl⟩
            show (if q.1 = q.1 then some (du + w q.2) else dp.1 q.1) = some (du + w q.2)
            exact if_pos rfl
          · rw [relaxEntry_ge hqv hd hlt]
            exact ⟨dto, hd, not_lt.mp hlt⟩
      obtain ⟨d0, h0, hle0⟩ := hstep
      obtain ⟨d', h', hle'⟩ := relaxFold_mono w u du visited l _ q.1 d0 h0
      exact ⟨d', h', le_trans hle' hle0⟩
    · exact ih _ q hql hqv

theorem selectMin_eq_none {dist : NodeId → Option ℚ} {visited : List NodeId}
    (h : selectMin dist visited = none) : ∀ n, n ∉ visited → dist n = none :=
  fun n hn => (selFold_eq_none nodesList none h).2 n (mem_nodesList n) hn

theorem selectMin_eq_some {dist : NodeId → Option ℚ} {visited : List NodeId}
    {u : NodeId} {du : ℚ} (h : selectMin dist visited = some (u, du)) :
    u ∉ visited ∧ dist u = some du := by
  rcases selFold_some nodesList none u du h with hacc | hres
  · exact absurd hacc (by simp)
  · exact hres

theorem selectMin_min {dist : NodeId → Option ℚ} {visited : List NodeId}
    {u : NodeId} {du : ℚ} (h : selectMin dist visited = some (u, du)) :
    ∀ n, n ∉ visited → ∀ d, dist n = some d → du ≤ d :=
  fun n hn d hd => (selFold_min nodesList none u du h).2 n (mem_nodesList n) hn d hd

theorem rankOf_pos (visited : List NodeId) (v : NodeId) : 1 ≤ rankOf visited v := by
  unfold rankOf
  split_ifs with h
  · have := List.indexOf_lt_length.mpr h
    omega
  · omega

theorem indexOf_get_of_nodup (l : List NodeId) (hnd : l.Nodup) (k : Fin l.length) :
    l.indexOf (l.get k) = k.val := by
  have hmem : l.get k ∈ l := List.get_mem l k.val k.isLt
  have hlt : l.indexOf (l.get k) < l.length := List.indexOf_lt_length.mpr hmem
  have h1 : l.get ⟨l.indexOf (l.get k), hlt⟩ = l.get k := List.indexOf_get hlt
  exact congrArg Fin.val ((hnd.get_inj_iff).mp h1)

theorem rank_lt_of_prev {adj : Adj} {w : Edge → ℚ} {start : NodeId} {targets : List NodeId}
    {dist : NodeId → Option ℚ} {prev : NodeId → Option NodeId} {visited : List NodeId}
    (inv : DInv adj w start targets dist prev visited) {v p : NodeId} {d : ℚ}
    (hd : dist v = some d) (hp : prev v = some p) :
    rankOf visited p < rankOf visited v := by
  obtain ⟨hpvis, -⟩ := inv.prev_some v d hd p hp
  have hplt : visited.indexOf p < visited.length := List.indexOf_lt_length.mpr hpvis
  by_cases hv : v ∈ visited
  · have hi : visited.indexOf v < visited.length := List.indexOf_lt_length.mpr hv
    have hget : visited.get ⟨visited.indexOf v, hi⟩ = v := List.indexOf_get hi
    have hchain := inv.chain (visited.indexOf v) hi p (by rw [hget]; exact hp)
    obtain ⟨j, hgetj⟩ := List.mem_iff_get.mp hchain
    have hlen : visited.indexOf v + 1 + j.val < visited.length := by
      have h1 := j.isLt
      have h2 := List.length_drop (visited.indexOf v + 1) visited
      omega
    have hget2 : visited.get ⟨visited.indexOf v + 1 + j.val, hlen⟩ = p := by
      rw [List.get_drop]
      exact hgetj
    have hidxp : visited.indexOf p = visited.indexOf v + 1 + j.val := by
      rw [← hget2]
      exact indexOf_get_of_nodup visited inv.nodup _
    unfold rankOf
    rw [if_pos hpvis, if_pos hv]
    omega
  · unfold rankOf
    rw [if_pos hpvis, if_neg hv]
    omega

theorem recon_spec {adj : Adj} {w : Edge → ℚ} {start : NodeId} {targets : List NodeId}
    {dist : NodeId → Option ℚ} {prev : NodeId → Option NodeId} {visited : List NodeId}
    (inv : DInv adj w start targets dist prev visited) :
    ∀ (fuel : ℕ) (v : NodeId) (d : ℚ), dist v = some d → rankOf visited v ≤ fuel →
      PathCost adj w (reconstructPath prev fuel v) d ∧
      (reconstructPath prev fuel v).head? = some start ∧
      (reconstructPath prev fuel v).getLast? = some v := by
  intro fuel
  induction fuel with
  | zero =>
    intro v d hd hrank
    exact absurd hrank (by have := rankOf_pos visited v; omega)
  | succ fuel ih =>
    intro v d hd hrank
    cases hp : prev v with
    | none =>
      have hv : v = start := inv.prev_none v d hd hp
      subst hv
      have hd0 : d = 0 := by
        rw [inv.start_dist] at hd
        exact (Option.some.inj hd).symm
      subst hd0
      have hrec : reconstructPath prev (fuel + 1) v = [v] := by
        simp only [reconstructPath, hp]
      rw [hrec]
      exact ⟨PathCost.single v, rfl, rfl⟩
    | some p =>
      obtain ⟨hpvis, dp, e, hdp, hadj, hdsum⟩ := inv.prev_some v d hd p hp
      have hrankp : rankOf visited p < rankOf visited v := rank_lt_of_prev inv hd hp
      obtain ⟨hpc, hhead, hlast⟩ := ih p dp hdp (by omega)
      have hrec : reconstructPath prev (fuel + 1) v =
          reconstructPath prev fuel p ++ [v] := by
        simp only [reconstructPath, hp]
      rw [hrec]
      refine ⟨?_, ?_, List.getLast?_concat _⟩
      · exact pathCost_cast hdsum.symm (pathCost_snoc hpc e hlast hadj)
      · rw [List.head?_append, hhead]
        rfl

theorem walk_cross {adj : Adj} {w : Edge → ℚ} {start : NodeId} {targets : List NodeId}
    {dist : NodeId → Option ℚ} {prev : NodeId → Option NodeId} {visited : List NodeId}
    (hw : ∀ x, ∀ q ∈ adj x, 0 < w q.2)
    (inv : DInv adj w start targets dist prev visited) :
    ∀ {x z : NodeId} {c : ℚ}, Walks adj w x z c → x ∈ visited → z ∉ visited →
    ∀ dx, dist x = some dx →
    ∃ y, y ∉ visited ∧ ∃ dy, dist y = some dy ∧ dy ≤ dx + c := by
  intro x z c hwalk
  induction hwalk with
  | refl u =>
    intro hx hz
    exact absurd hx hz
  | @cons u v z' c' e hmem hrest ih =>
    intro hx hz dx hdx
    by_cases hv : v ∈ visited
    · obtain ⟨dv, hdv⟩ := inv.settled_some v hv
      have hwalkv : Walks adj w start v (dx + w e) :=
        walks_snoc (inv.realized u dx hdx) e hmem
      have hdvle : dv ≤ dx + w e := inv.settled_min v hv dv hdv _ hwalkv
      obtain ⟨y, hy, dy, hdy, hle⟩ := ih hv hz dv hdv
      exact ⟨y, hy, dy, hdy, by linarith⟩
    · obtain ⟨d', hd', hle⟩ := inv.frontier u hx (v, e) hmem hv dx hdx
      have hc' : 0 ≤ c' := walks_nonneg hw hrest
      exact ⟨v, hv, d', hd', by dsimp only at hle; linarith⟩

theorem walk_cover {adj : Adj} {w : Edge → ℚ} {start : NodeId} {targets : List NodeId}
    {dist : NodeId → Option ℚ} {prev : NodeId → Option NodeId} {visited : List NodeId}
    (hw : ∀ x, ∀ q ∈ adj x, 0 < w q.2)
    (inv : DInv adj w start targets dist prev visited) :
    ∀ {z : NodeId} {c : ℚ}, z ∉ visited → Walks adj w start z c →
    ∃ y, y ∉ visited ∧ ∃ dy, dist y = some dy ∧ dy ≤ c := by
  intro z c hz hwalk
  by_cases hs : start ∈ visited
  · obtain ⟨y, hy, dy, hdy, hle⟩ := walk_cross hw inv hwalk hs hz 0 inv.start_dist
    exact ⟨y, hy, dy, hdy, by linarith⟩
  · exact ⟨start, hs, 0, inv.start_dist, walks_nonneg hw hwalk⟩

theorem pop_min {adj : Adj} {w : Edge → ℚ} {start : NodeId} {targets : List NodeId}
    {dist : NodeId → Option ℚ} {prev : NodeId → Option NodeId} {visited : List NodeId}
    {u : NodeId} {du : ℚ}
    (hw : ∀ x, ∀ q ∈ adj x, 0 < w q.2)
    (inv : DInv adj w start targets dist prev visited)
    (hsel : selectMin dist visited = some (u, du)) :
    ∀ c, Walks adj w start u c → du ≤ c := by
  intro c hwalk
  obtain ⟨hunv, hdu⟩ := selectMin_eq_some hsel
  obtain ⟨y, hy, dy, hdy, hle⟩ := walk_cover hw inv hunv hwalk
  exact le_trans (selectMin_min hsel y hy dy hdy) hle

theorem relax_preserves {adj : Adj} {w : Edge → ℚ} {start : NodeId} {targets : List NodeId}
    {dist : NodeId → Option ℚ} {prev : NodeId → Option NodeId} {visited : List NodeId}
    {u : NodeId} {du : ℚ}
    (hw : ∀ x, ∀ q ∈ adj x, 0 < w q.2)
    (inv : DInv adj w start targets dist prev visited)
    (hsel : selectMin dist visited = some (u, du))
    (hut : u ∉ targets) :
    DInv adj w start targets (relaxAll adj w u du (u :: visited) dist prev).1
      (relaxAll adj w u du (u :: visited) dist prev).2 (u :: visited) := by
  obtain ⟨hunv, hdu⟩ := selectMin_eq_some hsel
  have hpop := pop_min hw inv hsel
  have hself : u ∈ u :: visited := List.mem_cons_self u visited
  have hAv : ∀ v ∈ u :: visited,
      ((adj u).foldl (relaxEntry w u du (u :: visited)) (dist, prev)).1 v = dist v ∧
      ((adj u).foldl (relaxEntry w u du (u :: visited)) (dist, prev)).2 v = prev v :=
    relaxFold_visited w u du (u :: visited) (adj u) (dist, prev)
  show DInv adj w start targets
    ((adj u).foldl (relaxEntry w u du (u :: visited)) (dist, prev)).1
    ((adj u).foldl (relaxEntry w u du (u :: visited)) (dist, prev)).2 (u :: visited)
  refine ⟨?_, ?_, ?_, ?_, ?_, ?_, ?_, ?_, ?_, ?_, ?_, ?_⟩
  · exact List.nodup_cons.mpr ⟨hunv, inv.nodup⟩
  · by_cases hs : start ∈ u :: visited
    · rw [(hAv start hs).1]
      exact inv.start_dist
    · rcases relaxFold_cases w u du (u :: visited) (adj u) (dist, prev) start with ⟨h1, -⟩ | ⟨-, e, hel, h1, -⟩
      · rw [h1]
        exact inv.start_dist
      · obtain ⟨d', h2, hle⟩ := relaxFold_mono w u du (u :: visited) (adj u) (dist, prev) start 0 inv.start_dist
        rw [h1] at h2
        have hd' : du + w e = d' := Option.some.inj h2
        have hdu0 : 0 ≤ du := inv.nonneg u du hdu
        have hwpos : 0 < w e := hw u (start, e) hel
        exact absurd hle (by rw [← hd']; linarith)
  · intro v d hd
    rcases relaxFold_cases w u du (u :: visited) (adj u) (dist, prev) v with ⟨h1, -⟩ | ⟨-, e, hel, h1, -⟩
    · rw [h1] at hd
      exact inv.nonneg v d hd
    · rw [h1] at hd
      have hde : du + w e = d := Option.some.inj hd
      have hdu0 : 0 ≤ du := inv.nonneg u du hdu
      have hwpos : 0 < w e := hw u (v, e) hel
      rw [← hde]
      linarith
  · intro v d hd
    rcases relaxFold_cases w u du (u :: visited) (adj u) (dist, prev) v with ⟨h1, -⟩ | ⟨-, e, hel, h1, -⟩
    · rw [h1] at hd
      exact inv.realized v d hd
    · rw [h1] at hd
      have hde : du + w e = d := Option.some.inj hd
      rw [← hde]
      exact walks_snoc (inv.realized u du hdu) e hel
  · intro v hv
    rw [(hAv v hv).1]
    rcases List.mem_cons.mp hv with rfl | hvv
    · exact ⟨du, hdu⟩
    · exact inv.settled_some v hvv
  · intro v hv d hd c hwalk
    rw [(hAv v hv).1] at hd
    rcases List.mem_cons.mp hv with rfl | hvv
    · rw [hdu] at hd
      have hddu : du = d := Option.some.inj hd
      rw [← hddu]
      exact hpop c hwalk
    · exact inv.settled_min v hvv d hd c hwalk
  · intro v hv q hq hq1 dv hdv
    rw [(hAv v hv).1] at hdv
    rcases List.mem_cons.mp hv with rfl | hvv
    · rw [hdu] at hdv
      have hddu : du = dv := Option.some.inj hdv
      rw [← hddu]
      exact relaxFold_ub w v du (v :: visited) (adj v) (dist, prev) q hq hq1
    · have hq1' : q.1 ∉ visited := fun h => hq1 (List.mem_cons_of_mem u h)
      obtain ⟨d0, hd0, hle0⟩ := inv.frontier v hvv q hq hq1' dv hdv
      obtain ⟨d', hd', hle'⟩ := relaxFold_mono w u du (u :: visited) (adj u) (dist, prev) q.1 d0 hd0
      exact ⟨d', hd', le_trans hle' hle0⟩
  · intro v hv
    rcases List.mem_cons.mp hv with rfl | hvv
    · exact hut
    · exact inv.no_target v hvv
  · intro v d hd hpnone
    rcases relaxFold_cases w u du (u :: visited) (adj u) (dist, prev) v with ⟨h1, h2⟩ | ⟨-, e, hel, h1, h2⟩
    · rw [h1] at hd
      rw [h2] at hpnone
      exact inv.prev_none v d hd hpnone
    · rw [h2] at hpnone
      exact absurd hpnone (by simp)
  · intro v d hd p hp
    rcases relaxFold_cases w u du (u :: visited) (adj u) (dist, prev) v with ⟨h1, h2⟩ | ⟨hnv, e, hel, h1, h2⟩
    · rw [h1] at hd
      rw [h2] at hp
      obtain ⟨hpvis, dp, e, hdp, hadj, hsum⟩ := inv.prev_some v d hd p hp
      refine ⟨List.mem_cons_of_mem u hpvis, dp, e, ?_, hadj, hsum⟩
      rw [(hAv p (List.mem_cons_of_mem u hpvis)).1]
      exact hdp
    · rw [h2] at hp
      obtain rfl := Option.some.inj hp
      rw [h1] at hd
      refine ⟨hself, du, e, ?_, hel, (Option.some.inj hd).symm⟩
      rw [(hAv u hself).1]
      exact hdu
  · intro v p hp
    rcases relaxFold_cases w u du (u :: visited) (adj u) (dist, prev) v with ⟨h1, h2⟩ | ⟨-, e, -, h1, -⟩
    · rw [h2] at hp
      obtain ⟨d, hd⟩ := inv.prev_dist v p hp
      obtain ⟨d', hd', -⟩ := relaxFold_mono w u du (u :: visited) (adj u) (dist, prev) v d hd
      exact ⟨d', hd'⟩
    · exact ⟨du + w e, h1⟩
  · intro i h p hp
    cases i with
    | zero =>
      rw [show (u :: visited).get ⟨0, h⟩ = u from rfl] at hp
      rw [(hAv u hself).2] at hp
      obtain ⟨hpvis, -⟩ := inv.prev_some u du hdu p hp
      exact hpvis
    | succ i =>
      have hi : i < visited.length := by
        simp only [List.length_cons] at h
        omega
      have hgeti : (u :: visited).get ⟨i + 1, h⟩ = visited.get ⟨i, hi⟩ := rfl
      rw [hgeti] at hp
      have hmemvis : visited.get ⟨i, hi⟩ ∈ u :: visited :=
        List.mem_cons_of_mem u (List.get_mem visited i hi)
      rw [(hAv _ hmemvis).2] at hp
      exact inv.chain i hi p hp

theorem loop_correct {adj : Adj} {w : Edge → ℚ} {start : NodeId} {targets : List NodeId}
    (hw : ∀ x, ∀ q ∈ adj x, 0 < w q.2) :
    ∀ (fuel : ℕ) (dist : NodeId → Option ℚ) (prev : NodeId → Option NodeId)
      (visited : List NodeId), DInv adj w start targets dist prev visited →
      fuel + visited.length = nodesList.length →
      (∀ r, dijkstraLoop adj w targets fuel dist prev visited = some r →
        PathCost adj w r.path r.cost ∧ r.path.head? = some start ∧
        (∃ t, r.path.getLast? = some t ∧ t ∈ targets) ∧
        (∀ t c, t ∈ targets → Walks adj w start t c → r.cost ≤ c)) ∧
      (dijkstraLoop adj w targets fuel dist prev visited = none →
        ∀ t c, t ∈ targets → ¬ Walks adj w start t c) := by
  intro fuel
  induction fuel with
  | zero =>
    intro dist prev visited inv hlen
    constructor
    · intro r hr
      simp only [dijkstraLoop] at hr
      exact absurd hr (by simp)
    · intro _ t c ht hwalk
      have hlen4 : visited.length = 4 := by simpa [nodesList] using hlen
      have hall : ∀ x : NodeId, x ∈ visited := by
        intro x
        have hcard : visited.toFinset.card = Fintype.card NodeId := by
          rw [List.toFinset_card_of_nodup inv.nodup, hlen4]
          rfl
        have huniv := Finset.eq_univ_of_card _ hcard
        rw [← List.mem_toFinset, huniv]
        exact Finset.mem_univ x
      exact inv.no_target t (hall t) ht
  | succ fuel ih =>
    intro dist prev visited inv hlen
    cases hsel : selectMin dist visited with
    | none =>
      have hred : dijkstraLoop adj w targets (fuel + 1) dist prev visited = none := by
        simp only [dijkstraLoop, hsel]
      constructor
      · intro r hr
        rw [hred] at hr
        exact absurd hr (by simp)
      · intro _ t c ht hwalk
        have htnv : t ∉ visited := fun hvt => inv.no_target t hvt ht
        obtain ⟨y, hy, dy, hdy, -⟩ := walk_cover hw inv htnv hwalk
        rw [selectMin_eq_none hsel y hy] at hdy
        exact absurd hdy (by simp)
    | some ud =>
      obtain ⟨u, du⟩ := ud
      obtain ⟨hunv, hdu⟩ := selectMin_eq_some hsel
      by_cases hut : u ∈ targets
      · have hred : dijkstraLoop adj w targets (fuel + 1) dist prev visited =
            some ⟨reconstructPath prev nodesList.length u, du⟩ := by
          simp only [dijkstraLoop, hsel, if_pos hut]
        have hlen4 : nodesList.length = 4 := rfl
        constructor
        · intro r hr
          rw [hred] at hr
          obtain rfl := Option.some.inj hr
          have hvl : visited.length ≤ 3 := by
            rw [hlen4] at hlen
            omega
          have hrank : rankOf visited u ≤ nodesList.length := by
            unfold rankOf
            rw [if_neg hunv, hlen4]
            omega
          obtain ⟨hpc, hhead, hlast⟩ := recon_spec inv nodesList.length u du hdu hrank
          refine ⟨hpc, hhead, ⟨u, hlast, hut⟩, ?_⟩
          intro t c ht hwalk
          have htnv : t ∉ visited := fun hvt => inv.no_target t hvt ht
          obtain ⟨y, hy, dy, hdy, hle⟩ := walk_cover hw inv htnv hwalk
          exact le_trans (selectMin_min hsel y hy dy hdy) hle
        · intro hnone
          rw [hred] at hnone
          exact absurd hnone (by simp)
      · have hred : dijkstraLoop adj w targets (fuel + 1) dist prev visited =
            dijkstraLoop adj w targets fuel
              (relaxAll adj w u du (u :: visited) dist prev).1
              (relaxAll adj w u du (u :: visited) dist prev).2 (u :: visited) := by
          simp only [dijkstraLoop, hsel, if_neg hut]
        have hinv' := relax_preserves hw inv hsel hut
        have hlen' : fuel + (u :: visited).length = nodesList.length := by
          simp only [List.length_cons]
          omega
        rw [hred]
        exact ih _ _ _ hinv' hlen'

/-- Claim C4: for every start node, non-empty target set, adjacency structure
and strictly positive edge-weight function, when `dijkstra` returns a result
its path starts at the start node, ends at a target, is a real path through
the adjacency structure of exactly the returned cost, and that cost is
minimal over all paths from the start to any target; `dijkstra` returns
`none` exactly when no target is reachable from the start. -/
theorem dijkstra_correct (start : NodeId) (targets : List NodeId) (adj : Adj)
    (w : Edge → ℚ) (hw : ∀ x, ∀ q ∈ adj x, 0 < w q.2) (hne : targets ≠ []) :
    (∀ r, dijkstra start targets adj w = some r →
      PathCost adj w r.path r.cost ∧ r.path.head? = some start ∧
      (∃ t, r.path.getLast? = some t ∧ t ∈ targets) ∧
      (∀ p c t, PathCost adj w p c → p.head? = some start → p.getLast? = some t →
        t ∈ targets → r.cost ≤ c)) ∧
    (dijkstra start targets adj w = none ↔
      ¬ ∃ p c t, PathCost adj w p c ∧ p.head? = some start ∧ p.getLast? = some t ∧
        t ∈ targets) := by
  have hinv : DInv adj w start targets
      (fun n => if n = start then some 0 else none) (fun _ => none) [] := by
    refine ⟨List.nodup_nil, if_pos rfl, ?_, ?_, ?_, ?_, ?_, ?_, ?_, ?_, ?_, ?_⟩
    · intro v d hd
      by_cases hv : v = start
      · rw [if_pos hv] at hd
        have := Option.some.inj hd
        rw [← this]
      · rw [if_neg hv] at hd
        exact absurd hd (by simp)
    · intro v d hd
      by_cases hv : v = start
      · rw [if_pos hv] at hd
        subst hv
        rw [← Option.some.inj hd]
        exact Walks.refl v
      · rw [if_neg hv] at hd
        exact absurd hd (by simp)
    · exact fun v hv => absurd hv (List.not_mem_nil v)
    · exact fun v hv => absurd hv (List.not_mem_nil v)
    · exact fun v hv => absurd hv (List.not_mem_nil v)
    · exact fun v hv => absurd hv (List.not_mem_nil v)
    · intro v d hd _
      by_cases hv : v = start
      · exact hv
      · rw [if_neg hv] at hd
        exact absurd hd (by simp)
    · intro v d hd p hp
      exact absurd hp (by simp)
    · intro v p hp
      exact absurd hp (by simp)
    · intro i h
      exact absurd h (by simp)
  have hloop := loop_correct hw nodesList.length
    (fun n => if n = start then some 0 else none) (fun _ => none) [] hinv (by simp)
  have hdij : dijkstra start targets adj w = dijkstraLoop adj w targets nodesList.length
      (fun n => if n = start then some 0 else none) (fun _ => none) [] := rfl
  constructor
  · intro r hr
    rw [hdij] at hr
    obtain ⟨hpc, hhead, hex, hmin⟩ := hloop.1 r hr
    refine ⟨hpc, hhead, hex, ?_⟩
    intro p c t hp hph hpl ht
    exact hmin t c ht (walks_of_pathCost hp hph hpl)
  · constructor
    · intro hnone hcontra
      obtain ⟨p, c, t, hp, hph, hpl, ht⟩ := hcontra
      rw [hdij] at hnone
      exact hloop.2 hnone t c ht (walks_of_pathCost hp hph hpl)
    · intro hnex
      cases hd : dijkstra start targets adj w with
      | none => rfl
      | some r =>
        rw [hdij] at hd
        obtain ⟨hpc, hhead, ⟨t, hlast, ht⟩, -⟩ := hloop.1 r hd
        exact absurd ⟨r.path, r.cost, t, hpc, hhead, hlast, ht⟩ hnex

/-- Witness for C4: the default topology with its base distances as weights,
start `P1` and target set `[P2]`. -/
theorem dijkstra_correct_witness :
    (∀ x, ∀ q ∈ adjDefault x, 0 < (fun e : Edge => e.distance) q.2) ∧
    ([P2] : List NodeId) ≠ [] ∧
    ((∀ r, dijkstra P1 [P2] adjDefault (fun e => e.distance) = some r →
      PathCost adjDefault (fun e => e.distance) r.path r.cost ∧
      r.path.head? = some P1 ∧
      (∃ t, r.path.getLast? = some t ∧ t ∈ ([P2] : List NodeId)) ∧
      (∀ p c t, PathCost adjDefault (fun e => e.distance) p c → p.head? = some P1 →
        p.getLast? = some t → t ∈ ([P2] : List NodeId) → r.cost ≤ c)) ∧
    (dijkstra P1 [P2] adjDefault (fun e => e.distance) = none ↔
      ¬ ∃ p c t, PathCost adjDefault (fun e => e.distance) p c ∧ p.head? = some P1 ∧
        p.getLast? = some t ∧ t ∈ ([P2] : List NodeId))) := by
  refine ⟨?_, by simp, ?_⟩
  · intro x q hq
    have : ∀ y ∈ adjDefault x, 0 < y.2.distance := by
      cases x <;> norm_num +decide [adjDefault, buildAdjacency, EDGES_DEFAULT]
    exact this q hq
  · exact dijkstra_correct P1 [P2] adjDefault (fun e => e.distance)
      (by
        intro x q hq
        have : ∀ y ∈ adjDefault x, 0 < y.2.distance := by
          cases x <;> norm_num +decide [adjDefault, buildAdjacency, EDGES_DEFAULT]
        exact this q hq)
      (by simp)

theorem clip01_nonneg (v : ℚ) : 0 ≤ clip01 v := le_max_left 0 _

theorem clip01_le_one (v : ℚ) : clip01 v ≤ 1 :=
  max_le (by norm_num) (min_le_left 1 v)

theorem clip01_mono {a b : ℚ} (h : a ≤ b) : clip01 a ≤ clip01 b :=
  max_le_max le_rfl (min_le_min le_rfl h)

theorem clip01_of_mem {v : ℚ} (h0 : 0 ≤ v) (h1 : v ≤ 1) : clip01 v = v := by
  unfold clip01 clamp
  rw [min_eq_right h1, max_eq_right h0]

theorem L_MAP_nonneg (k : Fin 4) : 0 ≤ L_MAP k := by
  fin_cases k <;> norm_num [L_MAP]

theorem L_MAP_le_one (k : Fin 4) : L_MAP k ≤ 1 := by
  fin_cases k <;> norm_num [L_MAP]

theorem D_MAP_nonneg (k : Fin 3) : 0 ≤ D_MAP k := by
  fin_cases k <;> norm_num [D_MAP]

theorem D_MAP_le_one (k : Fin 3) : D_MAP k ≤ 1 := by
  fin_cases k <;> norm_num [D_MAP]

theorem nodeFactorBySri_mono : Monotone nodeFactorBySri := by
  intro s t hst
  unfold nodeFactorBySri LIMIT_SRI
  by_cases h1 : (7 : ℚ) - s ≤ 0
  · have h2 : (7 : ℚ) - t ≤ 0 := by linarith
    rw [if_pos h1, if_pos h2]
  · rw [if_neg h1]
    by_cases h2 : (7 : ℚ) - t ≤ 0
    · rw [if_pos h2]
      have := clip01_nonneg ((7 - s) / 7)
      linarith
    · rw [if_neg h2]
      have hmono : clip01 ((7 - t) / 7) ≤ clip01 ((7 - s) / 7) := by
        apply clip01_mono
        linarith
      linarith

theorem nodeFactorBySri_le_five (s : ℚ) : nodeFactorBySri s ≤ 5 := by
  unfold nodeFactorBySri LIMIT_SRI
  by_cases h : (7:ℚ) - s ≤ 0
  · rw [if_pos h]
  · rw [if_neg h]
    have := clip01_nonneg ((7 - s) / 7)
    linarith

/-- Claim C2 counterexample: at score 0 the node factor is `0.4`, not the
`1.0` the claim's range annotation asserts. -/
theorem nodeFactor_at_zero_counterexample :
    nodeFactorBySri 0 = 2/5 ∧ ¬ nodeFactorBySri 0 = 1 := by
  constructor <;> norm_num [nodeFactorBySri, LIMIT_SRI, clip01, clamp]

/-- Claim C2 (amended): for every score `s`, a nonpositive margin `7 - s`
yields factor `5.0`; a positive margin yields `1 - 0.6·clamp((7-s)/7, 0, 1)`,
which on `0 ≤ s < 7` equals the increasing linear map `0.4 + (0.6/7)·s`,
ranging from `0.4` at score `0` up towards (but below) `1.0` as the score
approaches the limit `7`. -/
theorem nodeFactor_formula (s : ℚ) :
    (LIMIT_SRI - s ≤ 0 → nodeFactorBySri s = 5) ∧
    (0 < LIMIT_SRI - s →
      nodeFactorBySri s = 1 - 0.6 * clamp ((LIMIT_SRI - s) / LIMIT_SRI) 0 1) ∧
    (0 ≤ s → s < 7 →
      nodeFactorBySri s = 2/5 + 3/35 * s ∧
      2/5 ≤ nodeFactorBySri s ∧ nodeFactorBySri s < 1) := by
  refine ⟨fun h => ?_, fun h => ?_, fun h0 h7 => ?_⟩
  · unfold nodeFactorBySri
    rw [if_pos h]
  · unfold nodeFactorBySri
    rw [if_neg (by linarith)]
    rfl
  · have hmargin : (0 : ℚ) < LIMIT_SRI - s := by unfold LIMIT_SRI; linarith
    have hval : nodeFactorBySri s = 2/5 + 3/35 * s := by
      unfold nodeFactorBySri LIMIT_SRI
      rw [if_neg (by linarith)]
      rw [clip01_of_mem (by positivity) (by rw [div_le_one (by norm_num)]; linarith)]
      ring
    refine ⟨hval, by rw [hval]; linarith, by rw [hval]; linarith⟩

/-- Witness for C2 at score 0. -/
theorem nodeFactor_formula_witness :
    (LIMIT_SRI - (0:ℚ) ≤ 0 → nodeFactorBySri 0 = 5) ∧
    (0 < LIMIT_SRI - (0:ℚ) →
      nodeFactorBySri 0 = 1 - 0.6 * clamp ((LIMIT_SRI - 0) / LIMIT_SRI) 0 1) ∧
    (0 ≤ (0:ℚ) → (0:ℚ) < 7 →
      nodeFactorBySri 0 = 2/5 + 3/35 * 0 ∧
      2/5 ≤ nodeFactorBySri 0 ∧ nodeFactorBySri 0 < 1) :=
  nodeFactor_formula 0

/-- Claim C5: for every bundle with non-negative rainfall, soil and sand,
the SRI lies in `[0, 10]`, the soil fraction is `0` whenever `soil + sand`
is `0`, and the band function partitions scores with `low` exactly on
`sri ≤ 3`, `mid` exactly on `3 < sri < 7`, `high` exactly on `7 ≤ sri`. -/
theorem computeSRI_bounds (p : PointData)
    (hr : 0 ≤ p.rainfall) (hs : 0 ≤ p.soil) (hn : 0 ≤ p.sand) :
    0 ≤ (computeSRI p).SRI ∧ (computeSRI p).SRI ≤ 10 ∧
    (p.soil + p.sand = 0 → (computeSRI p).f = 0) ∧
    (∀ x : ℚ, (sriBand x = .low ↔ x ≤ 3) ∧ (sriBand x = .mid ↔ 3 < x ∧ x < 7) ∧
      (sriBand x = .high ↔ 7 ≤ x)) := by
  have hR0 : 0 ≤ min (p.rainfall / 1000) 1 := le_min (by positivity) (by norm_num)
  have hR1 : min (p.rainfall / 1000) 1 ≤ 1 := min_le_right _ _
  have hT0 := clip01_nonneg ((((if 0 < p.soil + p.sand then p.soil / (p.soil + p.sand) else 0)) - 0.25) / 0.5)
  have hT1 := clip01_le_one ((((if 0 < p.soil + p.sand then p.soil / (p.soil + p.sand) else 0)) - 0.25) / 0.5)
  have hL0 := L_MAP_nonneg p.hoseLeak
  have hL1 := L_MAP_le_one p.hoseLeak
  have hD0 := D_MAP_nonneg p.trafficLoad
  have hD1 := D_MAP_le_one p.trafficLoad
  have hE0 : (0:ℚ) ≤ if p.excavation then 1 else 0 := by split_ifs <;> norm_num
  have hE1 : (if p.excavation then (1:ℚ) else 0) ≤ 1 := by split_ifs <;> norm_num
  have hSRI : (computeSRI p).SRI =
      min 10 (3 * min (p.rainfall / 1000) 1 +
        3 * clip01 (((if 0 < p.soil + p.sand then p.soil / (p.soil + p.sand) else 0) - 0.25) / 0.5) +
        2 * L_MAP p.hoseLeak + 1 * (if p.excavation then (1:ℚ) else 0) +
        1 * D_MAP p.trafficLoad) := rfl
  have hf : (computeSRI p).f =
      (if 0 < p.soil + p.sand then p.soil / (p.soil + p.sand) else 0) := rfl
  refine ⟨?_, ?_, fun hzero => ?_, fun x => ?_⟩
  · rw [hSRI]
    exact le_min (by norm_num) (by linarith)
  · rw [hSRI]
    exact min_le_left _ _
  · rw [hf, if_neg (by rw [hzero]; exact lt_irrefl 0)]
  · unfold sriBand
    split_ifs with h1 h2
    · refine ⟨iff_of_true rfl h1, iff_of_false (by simp) ?_, iff_of_false (by simp) ?_⟩
      · rintro ⟨h3, -⟩
        linarith
      · intro h7
        linarith
    · push_neg at h1
      refine ⟨iff_of_false (by simp) (by linarith), iff_of_true rfl ⟨h1, h2⟩,
        iff_of_false (by simp) (by linarith)⟩
    · push_neg at h1 h2
      refine ⟨iff_of_false (by simp) (by linarith), iff_of_false (by simp) ?_,
        iff_of_true rfl h2⟩
      rintro ⟨-, h7⟩
      linarith

/-- Witness for C5 at the zero observation bundle. -/
theorem computeSRI_bounds_witness :
    0 ≤ (makeInitialPoints P1).rainfall ∧ 0 ≤ (makeInitialPoints P1).soil ∧
    0 ≤ (makeInitialPoints P1).sand ∧
    (0 ≤ (computeSRI (makeInitialPoints P1)).SRI ∧
      (computeSRI (makeInitialPoints P1)).SRI ≤ 10 ∧
      ((makeInitialPoints P1).soil + (makeInitialPoints P1).sand = 0 →
        (computeSRI (makeInitialPoints P1)).f = 0) ∧
      (∀ x : ℚ, (sriBand x = .low ↔ x ≤ 3) ∧ (sriBand x = .mid ↔ 3 < x ∧ x < 7) ∧
        (sriBand x = .high ↔ 7 ≤ x))) :=
  ⟨le_refl 0, le_refl 0, le_refl 0,
    computeSRI_bounds (makeInitialPoints P1) (le_refl 0) (le_refl 0) (le_refl 0)⟩

/-- Claim C7: the planner's target set is exactly the other sites with score
strictly below the limit when at least one exists, and otherwise exactly all
other sites. -/
theorem escapeTargets_policy (start : NodeId) (m : NodeId → ℚ) :
    ((∃ n, n ≠ start ∧ m n < LIMIT_SRI) →
      ∀ n, n ∈ escapeTargets start m ↔ (n ≠ start ∧ m n < LIMIT_SRI)) ∧
    ((¬ ∃ n, n ≠ start ∧ m n < LIMIT_SRI) →
      ∀ n, n ∈ escapeTargets start m ↔ n ≠ start) := by
  constructor
  · rintro ⟨n0, hn0⟩ n
    have hmem : n0 ∈ nodesList.filter fun k => decide (k ≠ start ∧ m k < LIMIT_SRI) := by
      rw [List.mem_filter]
      exact ⟨mem_nodesList n0, by simpa using hn0⟩
    have hlen : 0 < (nodesList.filter fun k => decide (k ≠ start ∧ m k < LIMIT_SRI)).length := by
      rw [List.length_pos]
      intro hnil
      rw [hnil] at hmem
      exact absurd hmem (List.not_mem_nil n0)
    unfold escapeTargets
    rw [if_pos hlen, List.mem_filter]
    simp [mem_nodesList]
  · intro hno n
    have hnil : (nodesList.filter fun k => decide (k ≠ start ∧ m k < LIMIT_SRI)) = [] := by
      rw [List.filter_eq_nil_iff]
      intro a _
      simp only [decide_eq_true_eq]
      exact fun hcontra => hno ⟨a, hcontra⟩
    unfold escapeTargets
    rw [hnil]
    simp [List.mem_filter, mem_nodesList]

/-- Witness for C7 with trigger `P1` and the all-zero score map. -/
theorem escapeTargets_policy_witness :
    ((∃ n, n ≠ P1 ∧ (fun _ : NodeId => (0:ℚ)) n < LIMIT_SRI) →
      ∀ n, n ∈ escapeTargets P1 (fun _ => 0) ↔ (n ≠ P1 ∧ (fun _ : NodeId => (0:ℚ)) n < LIMIT_SRI)) ∧
    ((¬ ∃ n, n ≠ P1 ∧ (fun _ : NodeId => (0:ℚ)) n < LIMIT_SRI) →
      ∀ n, n ∈ escapeTargets P1 (fun _ => 0) ↔ n ≠ P1) :=
  escapeTargets_policy P1 (fun _ => 0)

/-- Claim C8: with a fixed positive base cost, raising one endpoint's score
(leaving every other site's score unchanged) never decreases the
connection's real cost. -/
theorem edgeRealWeight_mono (e : Edge) (m m' : NodeId → ℚ) (x : NodeId)
    (hpos : 0 < e.distance) (hagree : ∀ y, y ≠ x → m' y = m y) (hinc : m x ≤ m' x) :
    (edgeRealWeight e m).2 ≤ (edgeRealWeight e m').2 := by
  have hle : ∀ y, m y ≤ m' y := by
    intro y
    by_cases hy : y = x
    · subst hy; exact hinc
    · rw [hagree y hy]
  have ha := nodeFactorBySri_mono (hle e.a)
  have hb := nodeFactorBySri_mono (hle e.b)
  unfold edgeRealWeight
  dsimp only
  have : (nodeFactorBySri (m e.a) + nodeFactorBySri (m e.b)) / 2 ≤
      (nodeFactorBySri (m' e.a) + nodeFactorBySri (m' e.b)) / 2 := by linarith
  exact mul_le_mul_of_nonneg_left this hpos.le

theorem indexOf_getLast_of_nodup (l : List NodeId) (hnd : l.Nodup) (hne : l ≠ []) :
    l.indexOf (l.getLast hne) = l.length - 1 := by
  have hlen : 0 < l.length := List.length_pos.mpr hne
  have hmem : l.getLast hne ∈ l := List.getLast_mem hne
  have hlt : l.indexOf (l.getLast hne) < l.length := List.indexOf_lt_length.mpr hmem
  have h1 : l.get ⟨l.indexOf (l.getLast hne), hlt⟩ = l.getLast hne := List.indexOf_get hlt
  have h2 : l.getLast hne = l.get ⟨l.length - 1, by omega⟩ := List.getLast_eq_get l hne
  have h3 : l.get ⟨l.indexOf (l.getLast hne), hlt⟩ = l.get ⟨l.length - 1, by omega⟩ := by
    rw [h1, h2]
  have := (hnd.get_inj_iff).mp h3
  exact congrArg Fin.val this

theorem confirmHop_some {s : AppState} {h : NodeId}
    (hnh : nextHop s.escapePath s.currentNode = some h) :
    confirmHop s =
      { s with
        currentNode := h,
        alertOpen := (if some h = s.escapeDest then false else s.alertOpen) } := by
  unfold confirmHop
  rw [hnh]

theorem nextHop_cases (path : List NodeId) (pos : NodeId) (h2 : 2 ≤ path.length) :
    (path.indexOf pos < path.length - 1 ∧
      nextHop path pos = path.get? (path.indexOf pos + 1) ∧
      (path.get? (path.indexOf pos + 1)).isSome = true) ∨
    (¬ path.indexOf pos < path.length - 1 ∧ nextHop path pos = path.get? 1 ∧
      (path.get? 1).isSome = true) := by
  have hnlt : ¬ path.length < 2 := by omega
  by_cases hidx : path.indexOf pos < path.length - 1
  · refine .inl ⟨hidx, ?_, ?_⟩
    · unfold nextHop
      rw [if_neg hnlt, if_pos hidx]
    · rw [List.get?_eq_get (by omega)]
      rfl
  · refine .inr ⟨hidx, ?_, ?_⟩
    · unfold nextHop
      rw [if_neg hnlt, if_neg hidx]
    · rw [List.get?_eq_get (by omega)]
      rfl

theorem find_first_le (p : NodeId → Bool) : ∀ (l : List NodeId) (n : NodeId),
    l.find? p = some n → ∀ m ∈ l, p m = true → l.indexOf n ≤ l.indexOf m := by
  intro l
  induction l with
  | nil => intro n hfind; simp at hfind
  | cons a l ih =>
    intro n hfind m hm hpm
    by_cases hpa : p a = true
    · rw [List.find?_cons_of_pos _ hpa] at hfind
      injection hfind with hfind
      subst hfind
      rw [List.indexOf_cons_self]
      exact Nat.zero_le _
    · rw [List.find?_cons_of_neg _ hpa] at hfind
      have hpn : p n = true := List.find?_some hfind
      have hna : n ≠ a := fun h => hpa (h ▸ hpn)
      have hma : m ≠ a := fun h => hpa (h ▸ hpm)
      have hm' : m ∈ l := by
        rcases List.mem_cons.mp hm with h | h
        · exact absurd h hma
        · exact h
      have h1 : (a :: l).indexOf n = l.indexOf n + 1 := by
        rw [List.indexOf_cons, beq_eq_false_iff_ne.mpr (Ne.symm hna), cond_false]
      have h2 : (a :: l).indexOf m = l.indexOf m + 1 := by
        rw [List.indexOf_cons, beq_eq_false_iff_ne.mpr (Ne.symm hma), cond_false]
      rw [h1, h2]
      exact Nat.succ_le_succ (ih n hfind m hm' hpm)

/-- Witness for C8: the `P1`–`P2` connection with `P1`'s score raised from
0 to 8. -/
theorem edgeRealWeight_mono_witness :
    0 < (Edge.mk P1 P2 6).distance ∧
    (∀ y : NodeId, y ≠ P1 → demoSriMap y = (fun _ : NodeId => (0:ℚ)) y) ∧
    (fun _ : NodeId => (0:ℚ)) P1 ≤ demoSriMap P1 ∧
    (edgeRealWeight (Edge.mk P1 P2 6) (fun _ => 0)).2 ≤
      (edgeRealWeight (Edge.mk P1 P2 6) demoSriMap).2 := by
  refine ⟨by norm_num, ?_, by norm_num [demoSriMap], ?_⟩
  · intro y hy
    simp [demoSriMap, hy]
  · exact edgeRealWeight_mono (Edge.mk P1 P2 6) (fun _ => 0) demoSriMap P1
      (by norm_num) (fun y hy => by simp [demoSriMap, hy]) (by norm_num [demoSriMap])

/-- Claim C10: whenever the path has at least two elements the derived next
hop is present; it is `none` exactly for paths shorter than two; a position
absent from the path, or sitting at the path's last element (paths produced
by the planner never repeat a node), yields the path's second element. -/
theorem nextHop_never_none (path : List NodeId) (pos : NodeId) :
    (nextHop path pos = none ↔ path.length < 2) ∧
    (2 ≤ path.length → (nextHop path pos).isSome = true) ∧
    (2 ≤ path.length → pos ∉ path → nextHop path pos = path.get? 1) ∧
    (2 ≤ path.length → path.Nodup → ∀ hne : path ≠ [], pos = path.getLast hne →
      nextHop path pos = path.get? 1) := by
  by_cases hlen : path.length < 2
  · have hnone : nextHop path pos = none := by
      unfold nextHop
      rw [if_pos hlen]
    refine ⟨iff_of_true hnone hlen, fun h => absurd h (by omega), fun h => absurd h (by omega),
      fun h => absurd h (by omega)⟩
  · have h2 : 2 ≤ path.length := by omega
    have hsome : (nextHop path pos).isSome = true := by
      rcases nextHop_cases path pos h2 with ⟨-, heq, hs⟩ | ⟨-, heq, hs⟩ <;> rw [heq] <;> exact hs
    refine ⟨?_, fun _ => hsome, fun _ hnot => ?_, fun _ hnd hne hlast => ?_⟩
    · refine iff_of_false (fun hcontra => ?_) hlen
      rw [hcontra] at hsome
      simp at hsome
    · have hix : path.indexOf pos = path.length := List.indexOf_eq_length.mpr hnot
      rcases nextHop_cases path pos h2 with ⟨hidx, -, -⟩ | ⟨-, heq, -⟩
      · omega
      · exact heq
    · have hix : path.indexOf pos = path.length - 1 := by
        rw [hlast]
        exact indexOf_getLast_of_nodup path hnd hne
      rcases nextHop_cases path pos h2 with ⟨hidx, -, -⟩ | ⟨-, heq, -⟩
      · omega
      · exact heq

/-- Witness for C10: the two-element path `[P1, P2]` with the position at
its last element. -/
theorem nextHop_never_none_witness :
    (nextHop [P1, P2] P2 = none ↔ ([P1, P2] : List NodeId).length < 2) ∧
    (2 ≤ ([P1, P2] : List NodeId).length → (nextHop [P1, P2] P2).isSome = true) ∧
    (2 ≤ ([P1, P2] : List NodeId).length → P2 ∉ ([P1, P2] : List NodeId) →
      nextHop [P1, P2] P2 = ([P1, P2] : List NodeId).get? 1) ∧
    (2 ≤ ([P1, P2] : List NodeId).length → ([P1, P2] : List NodeId).Nodup →
      ∀ hne : ([P1, P2] : List NodeId) ≠ [], P2 = ([P1, P2] : List NodeId).getLast hne →
      nextHop [P1, P2] P2 = ([P1, P2] : List NodeId).get? 1) :=
  nextHop_never_none [P1, P2] P2

/-- Claim C9: on hop confirmation with an active path of length at least
two, the position advances to the element after its first occurrence when
that occurrence is not last, to the path's second element when the position
is absent from the path, and when the new position equals the recorded
destination the alert closes while the position keeps its new value; in
particular along a three-node path `[A, B, C]` from `A` the confirmations
yield `B` then `C`, and arrival at `C` closes the alert. -/
theorem confirmHop_spec (s : AppState) (h2 : 2 ≤ s.escapePath.length) :
    (∃ h, nextHop s.escapePath s.currentNode = some h ∧
      (confirmHop s).currentNode = h ∧
      (confirmHop s).escapePath = s.escapePath ∧
      (confirmHop s).escapeDest = s.escapeDest ∧
      (s.currentNode ∈ s.escapePath →
        s.escapePath.indexOf s.currentNode + 1 < s.escapePath.length →
        s.escapePath.get? (s.escapePath.indexOf s.currentNode + 1) = some h) ∧
      (s.currentNode ∉ s.escapePath → s.escapePath.get? 1 = some h) ∧
      (some h = s.escapeDest → (confirmHop s).alertOpen = false) ∧
      (some h ≠ s.escapeDest → (confirmHop s).alertOpen = s.alertOpen)) ∧
    (∀ A B C : NodeId, A ≠ B → B ≠ C → A ≠ C →
      ∀ t : AppState, t.escapePath = [A, B, C] → t.escapeDest = some C →
        t.currentNode = A →
        (confirmHop t).currentNode = B ∧ (confirmHop t).alertOpen = t.alertOpen ∧
        (confirmHop (confirmHop t)).currentNode = C ∧
        (confirmHop (confirmHop t)).alertOpen = false) := by
  constructor
  · have hex : ∃ h, nextHop s.escapePath s.currentNode = some h := by
      rcases nextHop_cases s.escapePath s.currentNode h2 with ⟨-, heq, hs⟩ | ⟨-, heq, hs⟩ <;>
        rw [heq] <;> exact Option.isSome_iff_exists.mp hs
    obtain ⟨h, hnh⟩ := hex
    have hup := confirmHop_some hnh
    refine ⟨h, hnh, ?_, ?_, ?_, ?_, ?_, ?_, ?_⟩
    · rw [hup]
    · rw [hup]
    · rw [hup]
    · intro hmem hlt
      rcases nextHop_cases s.escapePath s.currentNode h2 with ⟨-, heq, -⟩ | ⟨hidx, -, -⟩
      · rw [← heq, hnh]
      · omega
    · intro hnot
      have hix : s.escapePath.indexOf s.currentNode = s.escapePath.length :=
        List.indexOf_eq_length.mpr hnot
      rcases nextHop_cases s.escapePath s.currentNode h2 with ⟨hidx, -, -⟩ | ⟨-, heq, -⟩
      · omega
      · rw [← heq, hnh]
    · intro hdest
      rw [hup]
      exact if_pos hdest
    · intro hdest
      rw [hup]
      exact if_neg hdest
  · intro A B C hAB hBC hAC t hpath hdest hcur
    have hixA : ([A, B, C] : List NodeId).indexOf A = 0 := List.indexOf_cons_self A [B, C]
    have hixB : ([A, B, C] : List NodeId).indexOf B = 1 := by
      rw [List.indexOf_cons, beq_eq_false_iff_ne.mpr hAB, cond_false,
        List.indexOf_cons_self]
    have hn1 : nextHop [A, B, C] A = some B := by
      rcases nextHop_cases [A, B, C] A (by norm_num) with ⟨-, heq, -⟩ | ⟨hidx, -, -⟩
      · rw [heq, hixA]
        rfl
      · rw [hixA] at hidx
        norm_num at hidx
    have hn1' : nextHop t.escapePath t.currentNode = some B := by
      rw [hpath, hcur, hn1]
    have hne1 : ¬ some B = t.escapeDest := by
      rw [hdest]
      simp [hBC]
    have hup1 := confirmHop_some hn1'
    have hc1 : (confirmHop t).currentNode = B := by rw [hup1]
    have ha1 : (confirmHop t).alertOpen = t.alertOpen := by
      rw [hup1]
      exact if_neg hne1
    have hp1 : (confirmHop t).escapePath = [A, B, C] := by
      rw [hup1]
      exact hpath
    have hd1 : (confirmHop t).escapeDest = some C := by
      rw [hup1]
      exact hdest
    have hn2 : nextHop [A, B, C] B = some C := by
      rcases nextHop_cases [A, B, C] B (by norm_num) with ⟨-, heq, -⟩ | ⟨hidx, -, -⟩
      · rw [heq, hixB]
        rfl
      · rw [hixB] at hidx
        norm_num at hidx
    have hn2' : nextHop (confirmHop t).escapePath (confirmHop t).currentNode = some C := by
      rw [hp1, hc1, hn2]
    have hup2 := confirmHop_some hn2'
    refine ⟨hc1, ha1, ?_, ?_⟩
    · rw [hup2]
    · rw [hup2]
      show (if some C = (confirmHop t).escapeDest then false else (confirmHop t).alertOpen) = false
      rw [hd1]
      exact if_pos rfl

/-- Witness for C9: a state on the planner's default demo path
`[P1, P2]`, plus the three-node scenario at `[P1, P2, P3]`. -/
theorem confirmHop_spec_witness :
    2 ≤ (resetDemoState.escapePath).length ∧
    ((∃ h, nextHop resetDemoState.escapePath resetDemoState.currentNode = some h ∧
      (confirmHop resetDemoState).currentNode = h ∧
      (confirmHop resetDemoState).escapePath = resetDemoState.escapePath ∧
      (confirmHop resetDemoState).escapeDest = resetDemoState.escapeDest ∧
      (resetDemoState.currentNode ∈ resetDemoState.escapePath →
        resetDemoState.escapePath.indexOf resetDemoState.currentNode + 1 <
          resetDemoState.escapePath.length →
        resetDemoState.escapePath.get?
          (resetDemoState.escapePath.indexOf resetDemoState.currentNode + 1) = some h) ∧
      (resetDemoState.currentNode ∉ resetDemoState.escapePath →
        resetDemoState.escapePath.get? 1 = some h) ∧
      (some h = resetDemoState.escapeDest → (confirmHop resetDemoState).alertOpen = false) ∧
      (some h ≠ resetDemoState.escapeDest →
        (confirmHop resetDemoState).alertOpen = resetDemoState.alertOpen)) ∧
    (∀ A B C : NodeId, A ≠ B → B ≠ C → A ≠ C →
      ∀ t : AppState, t.escapePath = [A, B, C] → t.escapeDest = some C →
        t.currentNode = A →
        (confirmHop t).currentNode = B ∧ (confirmHop t).alertOpen = t.alertOpen ∧
        (confirmHop (confirmHop t)).currentNode = C ∧
        (confirmHop (confirmHop t)).alertOpen = false)) :=
  ⟨by norm_num [resetDemoState], confirmHop_spec resetDemoState (by norm_num [resetDemoState])⟩

theorem updateCycle_none_eq (s : AppState) (h : enteredHighOf s = none) :
    updateCycle s = { s with prevBand := nowBandOf s } := by
  unfold updateCycle
  rw [h]

theorem updateCycle_some_plan_eq (s : AppState) (n : NodeId) (pl : EscapePlan)
    (h : enteredHighOf s = some n)
    (hp : computeEscapePlan n (sriMapOf s.points) adjDefault = some pl) :
    updateCycle s =
      { s with
        prevBand := nowBandOf s,
        alertOpen := true,
        alertFrom := some n,
        escapePath := pl.path,
        escapeDest := pl.destination } := by
  unfold updateCycle
  simp only [h, hp]

theorem updateCycle_some_noplan_eq (s : AppState) (n : NodeId)
    (h : enteredHighOf s = some n)
    (hp : computeEscapePlan n (sriMapOf s.points) adjDefault = none) :
    updateCycle s =
      { s with
        prevBand := nowBandOf s,
        alertOpen := true,
        alertFrom := some n,
        escapePath := [n],
        escapeDest := none } := by
  unfold updateCycle
  simp only [h, hp]

/-- Claim C6: each observation-update cycle triggers a new plan exactly when
some site's band moves from low/mid to high (a site that stays high does not
re-fire); when several sites enter high together only the first in the
enumeration order `P1, P2, P3, P4` fires; and the fresh band snapshot is
always stored as the next baseline, trigger or not. -/
theorem updateCycle_edge_trigger (s : AppState) :
    ((updateCycle s).points = s.points) ∧
    (∀ n, (updateCycle s).prevBand n = nowBandOf s n) ∧
    ((∀ n, ¬(s.prevBand n ≠ SriBand.high ∧ nowBandOf s n = SriBand.high)) →
      (updateCycle s).alertOpen = s.alertOpen ∧
      (updateCycle s).alertFrom = s.alertFrom ∧
      (updateCycle s).escapePath = s.escapePath ∧
      (updateCycle s).escapeDest = s.escapeDest ∧
      (updateCycle s).currentNode = s.currentNode) ∧
    ((∃ n, s.prevBand n ≠ SriBand.high ∧ nowBandOf s n = SriBand.high) →
      ∃ n, enteredHighOf s = some n ∧
        (s.prevBand n ≠ SriBand.high ∧ nowBandOf s n = SriBand.high) ∧
        (∀ m, (s.prevBand m ≠ SriBand.high ∧ nowBandOf s m = SriBand.high) →
          nodesList.indexOf n ≤ nodesList.indexOf m) ∧
        (updateCycle s).alertOpen = true ∧
        (updateCycle s).alertFrom = some n ∧
        (∀ pl, computeEscapePlan n (sriMapOf s.points) adjDefault = some pl →
          (updateCycle s).escapePath = pl.path ∧
          (updateCycle s).escapeDest = pl.destination) ∧
        (computeEscapePlan n (sriMapOf s.points) adjDefault = none →
          (updateCycle s).escapePath = [n] ∧
          (updateCycle s).escapeDest = none)) := by
  cases henter : enteredHighOf s with
  | none =>
    have hupd := updateCycle_none_eq s henter
    have hnone := List.find?_eq_none.mp henter
    refine ⟨by rw [hupd], fun n => by rw [hupd], fun _ => ?_, fun hex => ?_⟩
    · rw [hupd]
      exact ⟨rfl, rfl, rfl, rfl, rfl⟩
    · obtain ⟨n, hn⟩ := hex
      have := hnone n (mem_nodesList n)
      rw [decide_eq_true_eq] at this
      exact absurd hn this
  | some n =>
    have hpn : s.prevBand n ≠ SriBand.high ∧ nowBandOf s n = SriBand.high := by
      have := List.find?_some henter
      rwa [decide_eq_true_eq] at this
    have hfirst : ∀ m, (s.prevBand m ≠ SriBand.high ∧ nowBandOf s m = SriBand.high) →
        nodesList.indexOf n ≤ nodesList.indexOf m := by
      intro m hm
      exact find_first_le _ nodesList n henter m (mem_nodesList m)
        (by rwa [decide_eq_true_eq])
    cases hplan : computeEscapePlan n (sriMapOf s.points) adjDefault with
    | none =>
      have hupd := updateCycle_some_noplan_eq s n henter hplan
      refine ⟨by rw [hupd], fun k => by rw [hupd], fun hno => absurd hpn (hno n),
        fun _ => ⟨n, rfl, hpn, hfirst, by rw [hupd], by rw [hupd], ?_, fun _ => ?_⟩⟩
      · intro pl hpl
        rw [hplan] at hpl
        exact absurd hpl (by simp)
      · rw [hupd]
        exact ⟨rfl, rfl⟩
    | some pl =>
      have hupd := updateCycle_some_plan_eq s n pl henter hplan
      refine ⟨by rw [hupd], fun k => by rw [hupd], fun hno => absurd hpn (hno n),
        fun _ => ⟨n, rfl, hpn, hfirst, by rw [hupd], by rw [hupd], ?_, fun hcontra => ?_⟩⟩
      · intro pl' hpl'
        rw [hplan] at hpl'
        have : pl = pl' := Option.some.inj hpl'
        subst this
        rw [hupd]
        exact ⟨rfl, rfl⟩
      · rw [hplan] at hcontra
        exact absurd hcontra (by simp)

/-- Witness for C6 applied to the concrete demo state. -/
theorem updateCycle_edge_trigger_witness :
    ((updateCycle resetDemoState).points = resetDemoState.points) ∧
    (∀ n, (updateCycle resetDemoState).prevBand n = nowBandOf resetDemoState n) ∧
    ((∀ n, ¬(resetDemoState.prevBand n ≠ SriBand.high ∧
        nowBandOf resetDemoState n = SriBand.high)) →
      (updateCycle resetDemoState).alertOpen = resetDemoState.alertOpen ∧
      (updateCycle resetDemoState).alertFrom = resetDemoState.alertFrom ∧
      (updateCycle resetDemoState).escapePath = resetDemoState.escapePath ∧
      (updateCycle resetDemoState).escapeDest = resetDemoState.escapeDest ∧
      (updateCycle resetDemoState).currentNode = resetDemoState.currentNode) ∧
    ((∃ n, resetDemoState.prevBand n ≠ SriBand.high ∧
        nowBandOf resetDemoState n = SriBand.high) →
      ∃ n, enteredHighOf resetDemoState = some n ∧
        (resetDemoState.prevBand n ≠ SriBand.high ∧
          nowBandOf resetDemoState n = SriBand.high) ∧
        (∀ m, (resetDemoState.prevBand m ≠ SriBand.high ∧
            nowBandOf resetDemoState m = SriBand.high) →
          nodesList.indexOf n ≤ nodesList.indexOf m) ∧
        (updateCycle resetDemoState).alertOpen = true ∧
        (updateCycle resetDemoState).alertFrom = some n ∧
        (∀ pl, computeEscapePlan n (sriMapOf resetDemoState.points) adjDefault = some pl →
          (updateCycle resetDemoState).escapePath = pl.path ∧
          (updateCycle resetDemoState).escapeDest = pl.destination) ∧
        (computeEscapePlan n (sriMapOf resetDemoState.points) adjDefault = none →
          (updateCycle resetDemoState).escapePath = [n] ∧
          (updateCycle resetDemoState).escapeDest = none)) :=
  updateCycle_edge_trigger resetDemoState

/-- Claim C3 counterexample: with an open alert, an active plan `[P1, P2]`
and the traveler at `P2`, the reset operation reinitializes the observation
bundles but leaves the alert open, the plan installed, and the position at
`P2` — it neither returns the alert to idle nor resets the position to `P1`
as the claim asserts. -/
theorem reset_claim_false :
    (resetPoints resetDemoState).alertOpen = true ∧
    (resetPoints resetDemoState).currentNode = P2 ∧
    (resetPoints resetDemoState).escapePath = [P1, P2] ∧
    ¬ ((resetPoints resetDemoState).alertOpen = false ∧
       (resetPoints resetDemoState).currentNode = P1) := by
  have h1 : (resetPoints resetDemoState).alertOpen = true := by
    norm_num +decide [resetPoints, updateCycle, enteredHighOf, nowBandOf, sriMapOf, computeSRI,
      makeInitialPoints, sriBand, clip01, clamp, L_MAP, D_MAP, nodesList, resetDemoState]
  have h2 : (resetPoints resetDemoState).currentNode = P2 := by
    norm_num +decide [resetPoints, updateCycle, enteredHighOf, nowBandOf, sriMapOf, computeSRI,
      makeInitialPoints, sriBand, clip01, clamp, L_MAP, D_MAP, nodesList, resetDemoState]
  have h3 : (resetPoints resetDemoState).escapePath = [P1, P2] := by
    norm_num +decide [resetPoints, updateCycle, enteredHighOf, nowBandOf, sriMapOf, computeSRI,
      makeInitialPoints, sriBand, clip01, clamp, L_MAP, D_MAP, nodesList, resetDemoState]
  refine ⟨h1, h2, h3, fun hcl => ?_⟩
  rw [h1] at hcl
  exact absurd hcl.1 (by decide)

/-- Claim C3 (amended): after the reset operation every site's SRI equals 0,
every band (and the stored band snapshot) is low, but the alert, the active
plan, and the traveler's position are all left exactly as they were — reset
reinitializes the observations only. -/
theorem reset_amended (s : AppState) :
    (∀ n, sriMapOf (resetPoints s).points n = 0) ∧
    (∀ n, sriBand (sriMapOf (resetPoints s).points n) = SriBand.low) ∧
    (∀ n, (resetPoints s).prevBand n = SriBand.low) ∧
    (resetPoints s).alertOpen = s.alertOpen ∧
    (resetPoints s).alertFrom = s.alertFrom ∧
    (resetPoints s).escapePath = s.escapePath ∧
    (resetPoints s).escapeDest = s.escapeDest ∧
    (resetPoints s).currentNode = s.currentNode := by
  have hsri : ∀ n : NodeId, sriMapOf makeInitialPoints n = 0 := by
    intro n
    norm_num [sriMapOf, computeSRI, makeInitialPoints, clip01, clamp, L_MAP, D_MAP]
  have hband0 : sriBand 0 = SriBand.low := by norm_num [sriBand]
  have henter : enteredHighOf { s with points := makeInitialPoints } = none := by
    rw [enteredHighOf, List.find?_eq_none]
    intro x hx
    simp only [decide_eq_true_eq, nowBandOf, not_and]
    intro hprev
    show ¬ sriBand (sriMapOf makeInitialPoints x) = SriBand.high
    rw [hsri x, hband0]
    simp
  have hreset : resetPoints s = updateCycle { s with points := makeInitialPoints } := rfl
  have hupd := updateCycle_none_eq _ henter
  rw [hreset, hupd]
  refine ⟨fun n => hsri n, fun n => by rw [hsri n]; exact hband0, fun n => ?_,
    rfl, rfl, rfl, rfl, rfl⟩
  show nowBandOf { s with points := makeInitialPoints } n = SriBand.low
  unfold nowBandOf
  show sriBand (sriMapOf makeInitialPoints n) = SriBand.low
  rw [hsri n]
  exact hband0

/-- Witness for C3's amended statement at the concrete demo state. -/
theorem reset_amended_witness :
    (∀ n, sriMapOf (resetPoints resetDemoState).points n = 0) ∧
    (∀ n, sriBand (sriMapOf (resetPoints resetDemoState).points n) = SriBand.low) ∧
    (∀ n, (resetPoints resetDemoState).prevBand n = SriBand.low) ∧
    (resetPoints resetDemoState).alertOpen = resetDemoState.alertOpen ∧
    (resetPoints resetDemoState).alertFrom = resetDemoState.alertFrom ∧
    (resetPoints resetDemoState).escapePath = resetDemoState.escapePath ∧
    (resetPoints resetDemoState).escapeDest = resetDemoState.escapeDest ∧
    (resetPoints resetDemoState).currentNode = resetDemoState.currentNode :=
  reset_amended resetDemoState

/-- Claim C1 counterexample: in the worked example (P1 at score 8, the rest
at 0) the node factor of a score-0 site is `0.4`, not `1.0`, so the plan's
total real cost is `6·((5 + 0.4)/2) = 16.2`, and the claimed result with
cost `18` is not what the planner returns. -/
theorem demo_plan_claim_false :
    nodeFactorBySri (demoSriMap P2) = 2/5 ∧
    computeEscapePlan P1 demoSriMap adjDefault ≠
      some ⟨[P1, P2], 18, some P2⟩ := by
  constructor
  · rw [show demoSriMap P2 = 0 from rfl]
    norm_num [nodeFactorBySri, LIMIT_SRI, clip01, clamp]
  · norm_num +decide [computeEscapePlan, dijkstra, dijkstraLoop, selectMin, relaxAll, relaxEntry,
      reconstructPath, selStep, escapeTargets, edgeRealWeight, nodeFactorBySri, clip01, clamp,
      LIMIT_SRI, adjDefault, buildAdjacency, EDGES_DEFAULT, nodesList, demoSriMap]

/-- Claim C1 (amended): with the default topology and P1 at score 8 (node
factor 5.0) while the other sites are at score 0 (node factor 0.4), the
planner from P1 selects the target set `{P2, P3, P4}` and returns
destination `P2` via the path `[P1, P2]` with total real cost
`6·((5 + 0.4)/2) = 16.2`. -/
theorem demo_plan :
    nodeFactorBySri (demoSriMap P1) = 5 ∧
    (∀ n, n ≠ P1 → nodeFactorBySri (demoSriMap n) = 2/5) ∧
    escapeTargets P1 demoSriMap = [P2, P3, P4] ∧
    computeEscapePlan P1 demoSriMap adjDefault =
      some ⟨[P1, P2], 6 * ((5 + 2/5) / 2), some P2⟩ := by
  refine ⟨?_, ?_, ?_, ?_⟩
  · norm_num [demoSriMap, nodeFactorBySri, LIMIT_SRI, clip01, clamp]
  · intro n hn
    have h0 : demoSriMap n = 0 := by
      cases n
      · exact absurd rfl hn
      all_goals rfl
    rw [h0]
    norm_num [nodeFactorBySri, LIMIT_SRI, clip01, clamp]
  · norm_num +decide [escapeTargets, nodesList, demoSriMap, LIMIT_SRI]
  · norm_num +decide [computeEscapePlan, dijkstra, dijkstraLoop, selectMin, relaxAll, relaxEntry,
      reconstructPath, selStep, escapeTargets, edgeRealWeight, nodeFactorBySri, clip01, clamp,
      LIMIT_SRI, adjDefault, buildAdjacency, EDGES_DEFAULT, nodesList, demoSriMap]

end Sinkhole
